import Mathlib

/-!
Shallow embedding of the derived-attribute computation engine and the
identity-preserving hierarchy reload of the Industrial-Data-Pipeline
repository.

The engine lives in src/database/database.py (functions
insert_attribute, backfill_derived_attribute, ensure_archive_unique_constraint,
create_derived_attribute_trigger, drop_derived_attribute_trigger,
update_attribute, delete_attribute); the reload lives in
src/src/database/populate.py (backup_derived_attributes,
update_archive_attribute_ids).

Modelling conventions:
* Timestamps are natural numbers, archive values are rationals
  (the SQL column is a nullable DOUBLE PRECISION; we idealise real
  arithmetic by rational arithmetic), NULL is `Option.none`.
* A formula string such as "$7 + $8" is embedded as an arithmetic
  expression tree `Expr` whose `ref` leaves are the `$N` tokens; the set
  of distinct ids collected by `re.findall(r'\$(\d+)', formula)` in the
  source corresponds to (the members of) `Expr.refs`.  `Expr.eval`
  embeds the generated SQL arithmetic, which propagates NULL strictly
  through `+ - * /`.  (Division by zero, which raises in PostgreSQL, is
  idealised as total rational division; no claim below exercises it.)
* The archive table is a list of rows; the unique constraint installed
  by ensure_archive_unique_constraint on (attribute_id, timestamp) is
  reflected by the key-checked operations below and by the `KeyUnique`
  invariant.
-/

namespace Pipeline

/-- SQL arithmetic expression produced from a formula string: `$N`
references become `ref N`, numeric literals become `const`. -/
inductive Expr where
  | const : ℚ → Expr
  | ref : Nat → Expr
  | add : Expr → Expr → Expr
  | sub : Expr → Expr → Expr
  | mul : Expr → Expr → Expr
  | div : Expr → Expr → Expr
deriving DecidableEq

/-- The attribute ids referenced by a formula, as collected by
`re.findall(r'\$(\d+)', formula)` in backfill_derived_attribute and
create_derived_attribute_trigger (membership is what matters: the
source keeps them as a set). -/
def Expr.refs : Expr → List Nat
  | .const _ => []
  | .ref i => [i]
  | .add a b => a.refs ++ b.refs
  | .sub a b => a.refs ++ b.refs
  | .mul a b => a.refs ++ b.refs
  | .div a b => a.refs ++ b.refs

/-- SQL evaluation of the formula under an environment assigning each
referenced attribute its (possibly NULL) value: NULL propagates
strictly through every arithmetic operator. -/
def Expr.eval (env : Nat → Option ℚ) : Expr → Option ℚ
  | .const q => some q
  | .ref i => env i
  | .add a b =>
    match a.eval env, b.eval env with
    | some x, some y => some (x + y)
    | _, _ => none
  | .sub a b =>
    match a.eval env, b.eval env with
    | some x, some y => some (x - y)
    | _, _ => none
  | .mul a b =>
    match a.eval env, b.eval env with
    | some x, some y => some (x * y)
    | _, _ => none
  | .div a b =>
    match a.eval env, b.eval env with
    | some x, some y => some (x / y)
    | _, _ => none

/-- One row of the archive table: `{attribute_id, timestamp, value}`
(the auto-increment archive_id primary key carries no logic and is
omitted). -/
structure Row where
  attribute_id : Nat
  timestamp : Nat
  value : Option ℚ
deriving DecidableEq

/-- One row of the attribute table. -/
structure AttrRec where
  attribute_id : Nat
  element_id : Nat
  name : String
  kks : Option String
deriving DecidableEq

/-- A derived-attribute registration: the trigger function
compute_derived_attr_{derived_id} generated by
create_derived_attribute_trigger, together with its formula. -/
structure Trigger where
  derived_id : Nat
  formula : Expr
deriving DecidableEq

/-- Database state: attribute table, archive table and the installed
derived-attribute triggers.  `nextAttrId` models the attribute_id
auto-increment sequence. -/
structure DB where
  attrs : List AttrRec
  archive : List Row
  triggers : List Trigger
  nextAttrId : Nat
deriving DecidableEq

/-- Does the archive hold a row with this (attribute_id, timestamp) key
(the key of the unique constraint)? -/
def hasKey (arch : List Row) (a t : Nat) : Bool :=
  match arch with
  | [] => false
  | r :: rs => (r.attribute_id == a && r.timestamp == t) || hasKey rs a t

/-- The scalar subquery `SELECT value FROM archive WHERE attribute_id =
a AND timestamp = t LIMIT 1` (also the `SELECT value INTO v_a` of the
generated trigger): the first matching row's value, NULL when no row
exists. -/
def lookupValue (arch : List Row) (a t : Nat) : Option ℚ :=
  match arch with
  | [] => none
  | r :: rs =>
    if r.attribute_id == a && r.timestamp == t then r.value else lookupValue rs a t

/-- The `DO UPDATE SET value = EXCLUDED.value` branch of the trigger's
upsert: overwrite the value of the existing row(s) with this key. -/
def updateValue (arch : List Row) (a t : Nat) (v : Option ℚ) : List Row :=
  arch.map (fun r =>
    if r.attribute_id == a && r.timestamp == t then { r with value := v } else r)

/-- Fuel bound for the trigger cascade of a single row insert.  During
one insert event every derived id acquires a row at the event timestamp
at most once (a second upsert takes the update branch, which fires no
AFTER INSERT trigger), so at most `triggers.length` cascaded frames
arise, each costing at most `triggers.length + 1` steps; the product
below strictly dominates the total step count. -/
def triggerFuel (trigs : List Trigger) : Nat :=
  (trigs.length + 1) * (trigs.length + 2)

/-- The AFTER INSERT trigger machinery of create_derived_attribute_trigger.

The stack holds frames `(pending triggers, NEW.attribute_id)`; all
events of one cascade share the timestamp `t`.  For each trigger, if
the freshly inserted row's attribute is among the formula's sources and
every source value at `t` is non-NULL, the derived value is upserted:
an update fires nothing further, while a genuine insert immediately
fires all triggers on the new row (Postgres runs the inner INSERT's
row-level AFTER triggers before the outer trigger returns), modelled by
pushing a fresh frame.  One unit of fuel is consumed per step;
`triggerFuel` makes exhaustion unreachable. -/
def fireStack (allT : List Trigger) :
    Nat → List (List Trigger × Nat) → Nat → List Row → List Row
  | _, [], _, arch => arch
  | 0, _ :: _, _, arch => arch
  | fuel + 1, ([], _) :: rest, t, arch => fireStack allT fuel rest t arch
  | fuel + 1, (tr :: trs, a) :: rest, t, arch =>
    if a ∈ tr.formula.refs then
      match tr.formula.eval (fun i => lookupValue arch i t) with
      | some v =>
        if hasKey arch tr.derived_id t then
          fireStack allT fuel ((trs, a) :: rest) t
            (updateValue arch tr.derived_id t (some v))
        else
          fireStack allT fuel ((allT, tr.derived_id) :: (trs, a) :: rest) t
            (arch ++ [⟨tr.derived_id, t, some v⟩])
      | none => fireStack allT fuel ((trs, a) :: rest) t arch
    else fireStack allT fuel ((trs, a) :: rest) t arch

/-- Commit of one new archive row (as performed per row by the
ingestion feed's COPY), followed by the installed AFTER INSERT
triggers. -/
def insertArchiveRow (db : DB) (a t : Nat) (v : Option ℚ) : DB :=
  { db with archive :=
      (fireStack db.triggers (triggerFuel db.triggers) [(db.triggers, a)] t
        (db.archive ++ [⟨a, t, v⟩])) }

/-- The same insert under the unique constraint installed by
ensure_archive_unique_constraint: a duplicate (attribute_id, timestamp)
key is rejected instead of ever storing a second row. -/
def insertArchiveRowChecked (db : DB) (a t : Nat) (v : Option ℚ) :
    Except String DB :=
  if hasKey db.archive a t then
    .error "duplicate key value violates unique constraint"
  else .ok (insertArchiveRow db a t v)

/-- `SELECT DISTINCT timestamp FROM archive WHERE attribute_id IN refs`
of backfill_derived_attribute. -/
def distinctTimestamps (arch : List Row) (ids : List Nat) : List Nat :=
  ((arch.filter (fun r => ids.contains r.attribute_id)).map
    (fun r => r.timestamp)).dedup

/-- The rows produced by backfill's INSERT ... SELECT: one derived row
per distinct source timestamp whose formula value is non-NULL (the
`WHERE {sql_formula} IS NOT NULL` clause); all subqueries read the
archive as of the start of the statement. -/
def backfillRows (arch : List Row) (d : Nat) (e : Expr) : List Row :=
  (distinctTimestamps arch e.refs).filterMap (fun t =>
    match e.eval (fun i => lookupValue arch i t) with
    | some v => some ⟨d, t, some v⟩
    | none => none)

/-- Row-by-row effect of `ON CONFLICT DO NOTHING`: a row whose key is
already present (including keys of rows inserted earlier in the same
statement) is skipped.  Returns the new archive and the list of rows
actually inserted (psycopg2's rowcount counts only those). -/
def insertIgnore (arch : List Row) : List Row → List Row × List Row
  | [] => (arch, [])
  | r :: rows =>
    if hasKey arch r.attribute_id r.timestamp then insertIgnore arch rows
    else
      let pr := insertIgnore (arch ++ [r]) rows
      (pr.1, r :: pr.2)

/-- backfill_derived_attribute: extract the referenced ids (an empty
set returns 0 immediately), fail fast if any referenced id is missing
from the attribute table, otherwise insert the computed rows with
ON CONFLICT DO NOTHING; the row-level AFTER INSERT triggers queued by
the statement then fire once per actually inserted row. -/
def backfill_derived_attribute (db : DB) (d : Nat) (e : Expr) :
    Except String (DB × Nat) :=
  if e.refs.isEmpty then .ok (db, 0)
  else if e.refs.all (fun i => db.attrs.any (fun a => a.attribute_id == i)) then
    let pr := insertIgnore db.archive (backfillRows db.archive d e)
    let arch2 := pr.2.foldl
      (fun acc r =>
        fireStack db.triggers (triggerFuel db.triggers)
          [(db.triggers, r.attribute_id)] r.timestamp acc)
      pr.1
    .ok ({ db with archive := arch2 }, pr.2.length)
  else .error "Formula references non-existent attribute IDs"

/-- create_derived_attribute_trigger: refuses a formula with no `$N`
token, otherwise (re)installs the trigger function and trigger for this
derived attribute (CREATE OR REPLACE FUNCTION / DROP TRIGGER IF EXISTS
followed by CREATE TRIGGER replace any previous registration). -/
def create_derived_attribute_trigger (db : DB) (d : Nat) (e : Expr) :
    Except String DB :=
  if e.refs.isEmpty then
    .error "Formula must reference at least one attribute"
  else
    .ok { db with triggers :=
      ((db.triggers.filter (fun tr => tr.derived_id ≠ d)) ++ [⟨d, e⟩]) }

/-- drop_derived_attribute_trigger: DROP TRIGGER IF EXISTS / DROP
FUNCTION IF EXISTS — absence is not an error. -/
def drop_derived_attribute_trigger (db : DB) (d : Nat) : DB :=
  { db with triggers := db.triggers.filter (fun tr => tr.derived_id ≠ d) }

/-- Input of insert_attribute (attribute_data dict). -/
structure InsertData where
  name : String
  element_id : Nat
  kks : Option String
  formula : Option Expr
  create_trigger : Bool
deriving DecidableEq

/-- insert_attribute: inserts the attribute row and commits it; only
then, if a formula was supplied, runs backfill (whose reference check
may fail) and installs the live trigger.  A failure in either later
phase leaves the already committed attribute row in place and is
reported to the caller. -/
def insert_attribute (db : DB) (d : InsertData) : DB × Except String Nat :=
  let newId := db.nextAttrId
  let db1 : DB :=
    { db with
      attrs := (db.attrs ++ [⟨newId, d.element_id, d.name, d.kks⟩]),
      nextAttrId := newId + 1 }
  match d.formula with
  | none => (db1, .ok newId)
  | some e =>
    match backfill_derived_attribute db1 newId e with
    | .error msg => (db1, .error msg)
    | .ok pr =>
      if d.create_trigger then
        match create_derived_attribute_trigger pr.1 newId e with
        | .error msg => (pr.1, .error msg)
        | .ok db3 => (db3, .ok newId)
      else (pr.1, .ok newId)

/-- Input of update_attribute (update_data dict).  A field set to
`none` is absent from the dict; the source treats an empty string as
absent as well (Python truthiness). -/
structure UpdateData where
  name : Option String
  kks : Option String
  formula : Option Expr
  recompute_archive : Bool
  recreate_trigger : Bool
deriving DecidableEq

/-- Python truthiness of an optional string field. -/
def givenStr : Option String → Bool
  | some s => s.length != 0
  | none => false

/-- Result dict of update_attribute (the keys the claims refer to). -/
structure UpdateResult where
  updated_fields : List String
  archive_records_deleted : Option Nat
  archive_records_inserted : Option Nat
deriving DecidableEq

/-- The metadata (name/kks) UPDATE statement of update_attribute. -/
def applyMeta (a : AttrRec) (d : UpdateData) : AttrRec :=
  let a1 := if givenStr d.name then
      { a with name := d.name.getD a.name } else a
  if givenStr d.kks then { a1 with kks := some (d.kks.getD "") } else a1

/-- update_attribute: looks up the attribute (error if absent), then
requires an installed trigger function compute_derived_attr_{id} —
otherwise it fails whether or not a formula was supplied ("Only derived
attributes ... can be updated").  Then it commits the metadata update,
and for a supplied formula drops the trigger, optionally deletes the
attribute's archive rows and re-runs backfill, and optionally
reinstalls the trigger; each phase's effects are committed as they
happen, so a late failure keeps the earlier phases. -/
def update_attribute (db : DB) (attribute_id : Nat) (d : UpdateData) :
    DB × Except String UpdateResult :=
  if ¬ db.attrs.any (fun a => a.attribute_id == attribute_id) then
    (db, .error "Attribute not found")
  else if ¬ db.triggers.any (fun tr => tr.derived_id == attribute_id) then
    (db, .error "not a derived attribute")
  else
    let fields1 := ((if givenStr d.name then ["name"] else []) ++
      (if givenStr d.kks then ["kks"] else []))
    let db1 : DB :=
      if fields1.isEmpty then db
      else { db with attrs :=
        (db.attrs.map (fun a =>
          if a.attribute_id == attribute_id then applyMeta a d else a)) }
    match d.formula with
    | none =>
      if fields1.isEmpty then
        (db1, .error "At least one field must be provided for update")
      else (db1, .ok ⟨fields1, none, none⟩)
    | some e =>
      let db2 := drop_derived_attribute_trigger db1 attribute_id
      if d.recompute_archive then
        let deleted :=
          (db2.archive.filter (fun r => r.attribute_id == attribute_id)).length
        let db3 : DB :=
          { db2 with archive :=
            (db2.archive.filter (fun r => r.attribute_id ≠ attribute_id)) }
        match backfill_derived_attribute db3 attribute_id e with
        | .error msg => (db3, .error msg)
        | .ok pr =>
          if d.recreate_trigger then
            match create_derived_attribute_trigger pr.1 attribute_id e with
            | .error msg => (pr.1, .error msg)
            | .ok db5 =>
              (db5, .ok ⟨fields1 ++ ["formula"], some deleted, some pr.2⟩)
          else (pr.1, .ok ⟨fields1 ++ ["formula"], some deleted, some pr.2⟩)
      else
        if d.recreate_trigger then
          match create_derived_attribute_trigger db2 attribute_id e with
          | .error msg => (db2, .error msg)
          | .ok db5 => (db5, .ok ⟨fields1 ++ ["formula"], none, none⟩)
        else (db2, .ok ⟨fields1 ++ ["formula"], none, none⟩)

/-- delete_attribute: drops the trigger if present (absence ignored),
counts and deletes the attribute's archive rows, deletes the attribute
row, and reports `attributes_deleted = 1` together with the archive
count — there is no existence check anywhere on the path. -/
def delete_attribute (db : DB) (attribute_id : Nat) : DB × Nat × Nat :=
  let db1 := drop_derived_attribute_trigger db attribute_id
  let archiveCount :=
    (db1.archive.filter (fun r => r.attribute_id == attribute_id)).length
  let db2 : DB :=
    { db1 with
      archive := (db1.archive.filter (fun r => r.attribute_id ≠ attribute_id)),
      attrs := (db1.attrs.filter (fun a => a.attribute_id ≠ attribute_id)) }
  (db2, 1, archiveCount)

/-!
The identity-preserving reload (src/src/database/populate.py).

backup_derived_attributes computes, via a recursive CTE over the
element table, the full path of every attribute
(`ancestor₁|…|ancestorₙ|attribute_name`) and stores
`{full_path → attribute_id}` in a Python dict; after the tree has been
rebuilt, update_archive_attribute_ids recomputes the same mapping for
the new tables, derives `{old_id → new_id}` for every path present in
both with differing ids, and then issues one
`UPDATE archive SET attribute_id = new WHERE attribute_id = old`
statement per pair, sequentially, against the live archive table.
-/

/-- One row of the element table. -/
structure Element where
  element_id : Nat
  name : String
  level : Nat
  parent_id : Option Nat
deriving DecidableEq

/-- Root-to-element list of names obtained by following parent links
(the recursive CTE `element_paths`); `none` when the element is not
reachable from a root (the INNER JOIN then drops the attribute).  The
fuel `elems.length` suffices for any forest. -/
def elementPathAux (elems : List Element) : Nat → Nat → Option (List String)
  | 0, _ => none
  | fuel + 1, eid =>
    match elems.find? (fun el => el.element_id == eid) with
    | none => none
    | some el =>
      match el.parent_id with
      | none => some [el.name]
      | some p =>
        match elementPathAux elems fuel p with
        | some ps => some (ps ++ [el.name])
        | none => none

/-- The pipe-joined path string `array_to_string(path_array, '|')`. -/
def pathString : List String → String
  | [] => ""
  | [s] => s
  | s :: rest => s ++ "|" ++ pathString rest

/-- Full path of an attribute:
`array_to_string(path_array,'|') || '|' || name`. -/
def attributeFullPath (elems : List Element) (a : AttrRec) : Option String :=
  match elementPathAux elems elems.length a.element_id with
  | some ps => some (pathString ps ++ "|" ++ a.name)
  | none => none

/-- Insert into a Python dict modelled as an association list: an
existing key is overwritten, a new key is appended (dict iteration
order is insertion order). -/
def assocPut (m : List (String × Nat)) (k : String) (v : Nat) :
    List (String × Nat) :=
  if m.any (fun kv => kv.1 == k) then
    m.map (fun kv => if kv.1 == k then (k, v) else kv)
  else m ++ [(k, v)]

/-- Dict lookup on the association list. -/
def assocFind (m : List (String × Nat)) (k : String) : Option Nat :=
  match m with
  | [] => none
  | kv :: rest => if kv.1 == k then some kv.2 else assocFind rest k

/-- The `{full_path → attribute_id}` dict built by the recursive-CTE
query shared by backup_derived_attributes (old mapping) and
update_archive_attribute_ids (new mapping). -/
def attribute_path_mapping (elems : List Element) (attrs : List AttrRec) :
    List (String × Nat) :=
  attrs.foldl
    (fun m a =>
      match attributeFullPath elems a with
      | some p => assocPut m p a.attribute_id
      | none => m)
    []

/-- One `UPDATE archive SET attribute_id = new WHERE attribute_id =
old` statement. -/
def applyIdUpdate (arch : List Row) (oldId newId : Nat) : List Row :=
  arch.map (fun r =>
    if r.attribute_id == oldId then { r with attribute_id := newId } else r)

/-- update_archive_attribute_ids: recompute the path mapping for the
rebuilt tables, build `{old_id → new_id}` for every path present in
both mappings whose id changed, and apply the updates one by one, each
against the archive as left by the previous one. -/
def update_archive_attribute_ids (elems : List Element) (attrs : List AttrRec)
    (arch : List Row) (old_mapping : List (String × Nat)) : List Row :=
  let new_mapping := attribute_path_mapping elems attrs
  let id_mapping := old_mapping.foldl
    (fun acc pr =>
      match assocFind new_mapping pr.1 with
      | some newId => if pr.2 ≠ newId then acc ++ [(pr.2, newId)] else acc
      | none => acc)
    []
  id_mapping.foldl (fun acc pr => applyIdUpdate acc pr.1 pr.2) arch

/-!
Derived notions used by the statements and proofs.
-/

/-- The single-trigger action of one AFTER INSERT firing when no
cascade can result (used to characterise `fireStack` runs on trigger
sets whose derived ids are not referenced by any formula). -/
def triggerStep (arch : List Row) (tr : Trigger) (a t : Nat) : List Row :=
  if a ∈ tr.formula.refs then
    match tr.formula.eval (fun i => lookupValue arch i t) with
    | some v =>
      if hasKey arch tr.derived_id t then updateValue arch tr.derived_id t (some v)
      else arch ++ [⟨tr.derived_id, t, some v⟩]
    | none => arch
  else arch

/-- All archive rows of one attribute. -/
def rowsOf (arch : List Row) (a : Nat) : List Row :=
  arch.filter (fun r => r.attribute_id == a)

/-- At most one archive row per (attribute_id, timestamp): the
invariant guaranteed by the unique constraint of
ensure_archive_unique_constraint. -/
def KeyUnique (arch : List Row) : Prop :=
  arch.Pairwise (fun r s => r.attribute_id ≠ s.attribute_id ∨ r.timestamp ≠ s.timestamp)

/-- The derived ids of the installed registrations. -/
def derivedIds (trigs : List Trigger) : List Nat :=
  trigs.map (fun tr => tr.derived_id)

/-- No derived attribute is itself a source of a derived attribute:
every formula references source (externally fed) attributes only. -/
def FlatTriggers (trigs : List Trigger) : Prop :=
  ∀ tr ∈ trigs, ∀ tr2 ∈ trigs, tr.derived_id ∉ tr2.formula.refs

/-- Each derived attribute has (at most) one registration, as enforced
by the one-function-per-id naming scheme compute_derived_attr_{id}. -/
def NodupDerived (trigs : List Trigger) : Prop :=
  (derivedIds trigs).Nodup

/-- Shape of the modifications a trigger cascade can perform on the
archive: a sequence of upserts (value update of an existing key, or
append of a fresh key) for registered derived ids, all at the event
timestamp. -/
inductive TrigWrites (allT : List Trigger) (t : Nat) (arch : List Row) :
    List Row → Prop where
  | refl : TrigWrites allT t arch arch
  | update (arch2 : List Row) (tr : Trigger) (v : ℚ)
      (htr : tr ∈ allT) (h1 : TrigWrites allT t arch arch2)
      (hk : hasKey arch2 tr.derived_id t = true) :
      TrigWrites allT t arch (updateValue arch2 tr.derived_id t (some v))
  | insert (arch2 : List Row) (tr : Trigger) (v : ℚ)
      (htr : tr ∈ allT) (h1 : TrigWrites allT t arch arch2)
      (hk : hasKey arch2 tr.derived_id t = false) :
      TrigWrites allT t arch (arch2 ++ [⟨tr.derived_id, t, some v⟩])

/-- The strict-AND invariant: a derived row exists at `t` exactly when
every source of its formula has a non-NULL value at `t`. -/
def DerivedInv (db : DB) : Prop :=
  ∀ tr ∈ db.triggers, ∀ t : Nat,
    hasKey db.archive tr.derived_id t = true ↔
      ∀ i ∈ tr.formula.refs, (lookupValue db.archive i t).isSome = true

/-!
Concrete instances used by the individual claims below.
-/

/-- Store for the order-independence scenario: sources 7 and 8, derived
attribute 9 registered with formula `$7 + $8`, empty archive. -/
def dbOrderInd : DB :=
  { attrs := [⟨7, 1, "s7", none⟩, ⟨8, 1, "s8", none⟩, ⟨9, 1, "sum", none⟩],
    archive := [],
    triggers := [⟨9, .add (.ref 7) (.ref 8)⟩],
    nextAttrId := 10 }

/-- Store in which source 8 has an archive row whose value is NULL at
timestamp 1 (the ingestion feed maps unreadable PI values to NULL)
while source 7 has value 2 there; 9 is the freshly created derived
attribute about to be backfilled with `$7 + $8`. -/
def dbNullRow : DB :=
  { attrs := [⟨7, 1, "s7", none⟩, ⟨8, 1, "s8", none⟩, ⟨9, 1, "sum", none⟩],
    archive := [⟨7, 1, some 2⟩, ⟨8, 1, none⟩],
    triggers := [],
    nextAttrId := 10 }

/-- Store in which derived 9 (formula `$7 + $8`, updated from an older
formula `$7` without recomputation) still carries its old value 2 at
timestamp 1, and derived 10 is registered on source 9 with formula
`$9`; source 8 has no row at timestamp 1 yet. -/
def dbUpdEvent : DB :=
  { attrs := [⟨7, 1, "s7", none⟩, ⟨8, 1, "s8", none⟩, ⟨9, 1, "d9", none⟩,
      ⟨10, 1, "d10", none⟩],
    archive := [⟨7, 1, some 2⟩, ⟨9, 1, some 2⟩, ⟨10, 1, some 2⟩],
    triggers := [⟨9, .add (.ref 7) (.ref 8)⟩, ⟨10, .ref 9⟩],
    nextAttrId := 11 }

/-- Store in which derived 9 already has a row with value 5 at
timestamp 1 while its (newer) formula `$7` computes 2 there. -/
def dbStale : DB :=
  { attrs := [⟨7, 1, "s7", none⟩, ⟨9, 1, "d9", none⟩],
    archive := [⟨7, 1, some 2⟩, ⟨9, 1, some 5⟩],
    triggers := [],
    nextAttrId := 10 }

/-- Store in which derived 6 holds value 3 at timestamp 2 while its
formula `$4 * 2` computes 20 there. -/
def dbDrift : DB :=
  { attrs := [⟨4, 1, "s4", none⟩, ⟨6, 1, "d6", none⟩],
    archive := [⟨4, 2, some 10⟩, ⟨6, 2, some 3⟩],
    triggers := [],
    nextAttrId := 7 }

/-- Store with a single source attribute 7 (id sequence at 8). -/
def dbOneSource : DB :=
  { attrs := [⟨7, 1, "s7", none⟩], archive := [], triggers := [], nextAttrId := 8 }

/-- Store with a single non-derived attribute 5 that has one archive
row. -/
def dbPlainAttr : DB :=
  { attrs := [⟨5, 1, "T", none⟩], archive := [⟨5, 1, some 1⟩], triggers := [],
    nextAttrId := 6 }

/-- Pre-reload hierarchy: one root element A with attributes X (id 1)
and Y (id 2). -/
def reloadOldElems : List Element := [⟨1, "A", 0, none⟩]

/-- Pre-reload attribute table (X inserted before Y). -/
def reloadOldAttrs : List AttrRec := [⟨1, 1, "X", none⟩, ⟨2, 1, "Y", none⟩]

/-- Post-rebuild hierarchy from a snapshot carrying the same paths. -/
def reloadNewElems : List Element := [⟨1, "A", 0, none⟩]

/-- Post-rebuild attribute table: the snapshot lists Y before X, so the
restarted id sequence assigns Y id 1 and X id 2 — same paths, swapped
ids. -/
def reloadNewAttrs : List AttrRec := [⟨1, 1, "Y", none⟩, ⟨2, 1, "X", none⟩]

/-- Pre-reload archive: X (old id 1) has value 1 and Y (old id 2) has
value 2 at timestamp 10. -/
def reloadArch : List Row := [⟨1, 10, some 1⟩, ⟨2, 10, some 2⟩]

/-!
Lemmas about formula evaluation.
-/

/-- Evaluation only depends on the environment at the referenced ids. -/
theorem Expr.eval_congr :
    ∀ (e : Expr) {env1 env2 : Nat → Option ℚ},
      (∀ i ∈ e.refs, env1 i = env2 i) → e.eval env1 = e.eval env2 := by
  intro e
  induction e with
  | const q => intro env1 env2 h; rfl
  | ref i => intro env1 env2 h; exact h i (by simp [Expr.refs])
  | add a b iha ihb =>
    intro env1 env2 h
    have h1 := iha (fun i hi => h i (by simp only [Expr.refs, List.mem_append]; exact Or.inl hi))
    have h2 := ihb (fun i hi => h i (by simp only [Expr.refs, List.mem_append]; exact Or.inr hi))
    simp only [Expr.eval, h1, h2]
  | sub a b iha ihb =>
    intro env1 env2 h
    have h1 := iha (fun i hi => h i (by simp only [Expr.refs, List.mem_append]; exact Or.inl hi))
    have h2 := ihb (fun i hi => h i (by simp only [Expr.refs, List.mem_append]; exact Or.inr hi))
    simp only [Expr.eval, h1, h2]
  | mul a b iha ihb =>
    intro env1 env2 h
    have h1 := iha (fun i hi => h i (by simp only [Expr.refs, List.mem_append]; exact Or.inl hi))
    have h2 := ihb (fun i hi => h i (by simp only [Expr.refs, List.mem_append]; exact Or.inr hi))
    simp only [Expr.eval, h1, h2]
  | div a b iha ihb =>
    intro env1 env2 h
    have h1 := iha (fun i hi => h i (by simp only [Expr.refs, List.mem_append]; exact Or.inl hi))
    have h2 := ihb (fun i hi => h i (by simp only [Expr.refs, List.mem_append]; exact Or.inr hi))
    simp only [Expr.eval, h1, h2]

/-- Strict NULL propagation: the formula value is non-NULL exactly when
every referenced attribute's value is non-NULL (the generated trigger's
`v_i IS NOT NULL AND ...` conjunction and backfill's
`WHERE formula IS NOT NULL` clause agree through this). -/
theorem Expr.eval_isSome_iff :
    ∀ (e : Expr) (env : Nat → Option ℚ),
      (e.eval env).isSome = true ↔ ∀ i ∈ e.refs, (env i).isSome = true := by
  intro e env
  induction e with
  | const q => simp [Expr.eval, Expr.refs]
  | ref i => simp [Expr.eval, Expr.refs]
  | add a b iha ihb =>
    have hsplit : ((Expr.add a b).eval env).isSome = true ↔
        ((a.eval env).isSome = true ∧ (b.eval env).isSome = true) := by
      cases ha : a.eval env <;> cases hb : b.eval env <;> simp [Expr.eval, ha, hb]
    rw [hsplit, iha, ihb]
    simp only [Expr.refs, List.forall_mem_append]
  | sub a b iha ihb =>
    have hsplit : ((Expr.sub a b).eval env).isSome = true ↔
        ((a.eval env).isSome = true ∧ (b.eval env).isSome = true) := by
      cases ha : a.eval env <;> cases hb : b.eval env <;> simp [Expr.eval, ha, hb]
    rw [hsplit, iha, ihb]
    simp only [Expr.refs, List.forall_mem_append]
  | mul a b iha ihb =>
    have hsplit : ((Expr.mul a b).eval env).isSome = true ↔
        ((a.eval env).isSome = true ∧ (b.eval env).isSome = true) := by
      cases ha : a.eval env <;> cases hb : b.eval env <;> simp [Expr.eval, ha, hb]
    rw [hsplit, iha, ihb]
    simp only [Expr.refs, List.forall_mem_append]
  | div a b iha ihb =>
    have hsplit : ((Expr.div a b).eval env).isSome = true ↔
        ((a.eval env).isSome = true ∧ (b.eval env).isSome = true) := by
      cases ha : a.eval env <;> cases hb : b.eval env <;> simp [Expr.eval, ha, hb]
    rw [hsplit, iha, ihb]
    simp only [Expr.refs, List.forall_mem_append]

/-!
Lemmas about the archive store primitives.
-/

theorem hasKey_append (l1 l2 : List Row) (a t : Nat) :
    hasKey (l1 ++ l2) a t = (hasKey l1 a t || hasKey l2 a t) := by
  induction l1 with
  | nil => simp [hasKey]
  | cons r rs ih => simp [hasKey, ih, Bool.or_assoc]

theorem hasKey_iff_exists (arch : List Row) (a t : Nat) :
    hasKey arch a t = true ↔ ∃ r ∈ arch, r.attribute_id = a ∧ r.timestamp = t := by
  induction arch with
  | nil => simp [hasKey]
  | cons r rs ih => simp [hasKey, ih]

theorem hasKey_false_of_all_ne {arch : List Row} {a t : Nat}
    (h : ∀ r ∈ arch, r.attribute_id ≠ a) : hasKey arch a t = false := by
  rw [← Bool.not_eq_true, hasKey_iff_exists]
  rintro ⟨r, hr, h1, h2⟩
  exact h r hr h1

theorem lookupValue_eq_none_of_hasKey_false {arch : List Row} {a t : Nat}
    (h : hasKey arch a t = false) : lookupValue arch a t = none := by
  induction arch with
  | nil => rfl
  | cons r rs ih =>
    simp only [hasKey, Bool.or_eq_false_iff] at h
    simp only [lookupValue, h.1, Bool.false_eq_true, if_false]
    exact ih h.2

theorem hasKey_of_lookupValue_isSome {arch : List Row} {a t : Nat}
    (h : (lookupValue arch a t).isSome = true) : hasKey arch a t = true := by
  by_contra hk
  rw [Bool.not_eq_true] at hk
  rw [lookupValue_eq_none_of_hasKey_false hk] at h
  simp at h

theorem lookupValue_append_left {l1 : List Row} (l2 : List Row) {a t : Nat}
    (h : hasKey l1 a t = true) :
    lookupValue (l1 ++ l2) a t = lookupValue l1 a t := by
  induction l1 with
  | nil => simp [hasKey] at h
  | cons r rs ih =>
    simp only [hasKey, Bool.or_eq_true] at h
    by_cases hr : (r.attribute_id == a && r.timestamp == t) = true
    · simp [lookupValue, hr]
    · simp only [List.cons_append, lookupValue, hr, Bool.false_eq_true, if_false]
      exact ih (h.resolve_left hr)

theorem lookupValue_append_right {l1 : List Row} (l2 : List Row) {a t : Nat}
    (h : hasKey l1 a t = false) :
    lookupValue (l1 ++ l2) a t = lookupValue l2 a t := by
  induction l1 with
  | nil => rfl
  | cons r rs ih =>
    simp only [hasKey, Bool.or_eq_false_iff] at h
    simp only [List.cons_append, lookupValue, h.1, Bool.false_eq_true, if_false]
    exact ih h.2

theorem updateValue_nil (b s : Nat) (v : Option ℚ) :
    updateValue [] b s v = [] := rfl

theorem updateValue_cons (r : Row) (rs : List Row) (b s : Nat) (v : Option ℚ) :
    updateValue (r :: rs) b s v =
      ((if (r.attribute_id == b && r.timestamp == s) = true then
        { r with value := v } else r) :: updateValue rs b s v) := rfl

theorem hasKey_updateValue (arch : List Row) (b s : Nat) (v : Option ℚ)
    (a t : Nat) : hasKey (updateValue arch b s v) a t = hasKey arch a t := by
  induction arch with
  | nil => rfl
  | cons r rs ih =>
    rw [updateValue_cons]
    cases hc : (r.attribute_id == b && r.timestamp == s)
    · simp only [Bool.false_eq_true, if_false, hasKey, ih]
    · simp only [if_true, hasKey, ih]

theorem lookupValue_updateValue_ne_attr {b a : Nat} (arch : List Row)
    (s : Nat) (v : Option ℚ) (t : Nat) (h : a ≠ b) :
    lookupValue (updateValue arch b s v) a t = lookupValue arch a t := by
  induction arch with
  | nil => rfl
  | cons r rs ih =>
    rw [updateValue_cons]
    cases hc : (r.attribute_id == b && r.timestamp == s)
    · simp only [Bool.false_eq_true, if_false, lookupValue, ih]
    · have hb : r.attribute_id = b := by
        have hc2 := hc
        simp only [Bool.and_eq_true, beq_iff_eq] at hc2
        exact hc2.1
      have hne : (r.attribute_id == a) = false := by
        rw [hb]
        exact beq_eq_false_iff_ne.mpr (Ne.symm h)
      simp only [if_true, lookupValue, hne, Bool.false_and, Bool.false_eq_true,
        if_false, ih]

theorem lookupValue_updateValue_ne_ts {s t : Nat} (arch : List Row)
    (b : Nat) (v : Option ℚ) (a : Nat) (h : t ≠ s) :
    lookupValue (updateValue arch b s v) a t = lookupValue arch a t := by
  induction arch with
  | nil => rfl
  | cons r rs ih =>
    rw [updateValue_cons]
    cases hc : (r.attribute_id == b && r.timestamp == s)
    · simp only [Bool.false_eq_true, if_false, lookupValue, ih]
    · have hb : r.timestamp = s := by
        have hc2 := hc
        simp only [Bool.and_eq_true, beq_iff_eq] at hc2
        exact hc2.2
      have hne : (r.timestamp == t) = false := by
        rw [hb]
        exact beq_eq_false_iff_ne.mpr (Ne.symm h)
      simp only [if_true, lookupValue, hne, Bool.and_false, Bool.false_eq_true,
        if_false, ih]

theorem lookupValue_updateValue_self {arch : List Row} {b s : Nat}
    (v : Option ℚ) (h : hasKey arch b s = true) :
    lookupValue (updateValue arch b s v) b s = v := by
  induction arch with
  | nil => simp [hasKey] at h
  | cons r rs ih =>
    rw [updateValue_cons]
    cases hc : (r.attribute_id == b && r.timestamp == s)
    · simp only [hasKey, hc, Bool.false_or] at h
      simp only [Bool.false_eq_true, if_false, lookupValue, hc, ih h]
    · simp only [if_true, lookupValue, hc, if_true]

theorem length_updateValue (arch : List Row) (b s : Nat) (v : Option ℚ) :
    (updateValue arch b s v).length = arch.length := by
  simp [updateValue]

/-!
Lemmas about rowsOf and KeyUnique.
-/

theorem rowsOf_append (l1 l2 : List Row) (a : Nat) :
    rowsOf (l1 ++ l2) a = rowsOf l1 a ++ rowsOf l2 a := by
  simp [rowsOf, List.filter_append]

theorem rowsOf_append_ne {l2 : List Row} {a : Nat} (l1 : List Row)
    (h : ∀ r ∈ l2, r.attribute_id ≠ a) : rowsOf (l1 ++ l2) a = rowsOf l1 a := by
  rw [rowsOf_append]
  have h2 : rowsOf l2 a = [] := by
    simp only [rowsOf, List.filter_eq_nil_iff]
    intro r hr
    simp [h r hr]
  simp [h2]

theorem rowsOf_updateValue_ne {b a : Nat} (arch : List Row) (s : Nat)
    (v : Option ℚ) (h : b ≠ a) :
    rowsOf (updateValue arch b s v) a = rowsOf arch a := by
  induction arch with
  | nil => rfl
  | cons r rs ih =>
    rw [updateValue_cons]
    cases hc : (r.attribute_id == b && r.timestamp == s)
    · simp only [Bool.false_eq_true, if_false]
      simp only [rowsOf, List.filter_cons] at *
      rw [ih]
    · have hb : r.attribute_id = b := by
        have hc2 := hc
        simp only [Bool.and_eq_true, beq_iff_eq] at hc2
        exact hc2.1
      have hne : (r.attribute_id == a) = false := by
        rw [hb]
        exact beq_eq_false_iff_ne.mpr h
      simp only [if_true]
      simp only [rowsOf, List.filter_cons, hne] at *
      simp only [Bool.false_eq_true, if_false]
      rw [ih]

theorem KeyUnique_append_singleton {arch : List Row} {a t : Nat}
    (v : Option ℚ) (hu : KeyUnique arch) (hk : hasKey arch a t = false) :
    KeyUnique (arch ++ [⟨a, t, v⟩]) := by
  rw [KeyUnique, List.pairwise_append]
  refine ⟨hu, List.pairwise_singleton _ _, ?_⟩
  intro r hr row hrow
  simp only [List.mem_singleton] at hrow
  subst hrow
  have : ¬(r.attribute_id = a ∧ r.timestamp = t) := by
    intro hcon
    have : hasKey arch a t = true := (hasKey_iff_exists arch a t).mpr ⟨r, hr, hcon⟩
    rw [this] at hk
    cases hk
  by_cases h1 : r.attribute_id = a
  · exact Or.inr (fun h2 => this ⟨h1, h2⟩)
  · exact Or.inl h1

theorem KeyUnique_updateValue {arch : List Row} (b s : Nat) (v : Option ℚ)
    (hu : KeyUnique arch) : KeyUnique (updateValue arch b s v) := by
  rw [KeyUnique, updateValue, List.pairwise_map]
  have e1 : ∀ r : Row,
      (if (r.attribute_id == b && r.timestamp == s) = true then
        { r with value := v } else r).attribute_id = r.attribute_id := by
    intro r; split <;> rfl
  have e2 : ∀ r : Row,
      (if (r.attribute_id == b && r.timestamp == s) = true then
        { r with value := v } else r).timestamp = r.timestamp := by
    intro r; split <;> rfl
  refine hu.imp (fun {r1 r2} h => ?_)
  rcases h with h | h
  · exact Or.inl (by rw [e1, e1]; exact h)
  · exact Or.inr (by rw [e2, e2]; exact h)

/-!
Lemmas about insertIgnore.
-/

theorem insertIgnore_fst (rows : List Row) :
    ∀ arch : List Row, (insertIgnore arch rows).1 = arch ++ (insertIgnore arch rows).2 := by
  induction rows with
  | nil => intro arch; simp [insertIgnore]
  | cons r rest ih =>
    intro arch
    by_cases hk : hasKey arch r.attribute_id r.timestamp = true
    · simp only [insertIgnore, hk, if_true]
      exact ih arch
    · simp only [insertIgnore, hk, if_false]
      rw [ih (arch ++ [r])]
      simp

theorem insertIgnore_mem_rows {rows : List Row} :
    ∀ {arch : List Row} {r : Row}, r ∈ (insertIgnore arch rows).2 → r ∈ rows := by
  induction rows with
  | nil => intro arch r h; simp [insertIgnore] at h
  | cons q rest ih =>
    intro arch r h
    by_cases hk : hasKey arch q.attribute_id q.timestamp = true
    · simp only [insertIgnore, hk, if_true] at h
      exact List.mem_cons_of_mem _ (ih h)
    · simp only [insertIgnore, hk, if_false] at h
      cases h with
      | head => exact List.mem_cons_self _ _
      | tail _ h2 => exact List.mem_cons_of_mem _ (ih h2)

theorem insertIgnore_hasKey_mono {arch : List Row} (rows : List Row)
    {a t : Nat} (h : hasKey arch a t = true) :
    hasKey (insertIgnore arch rows).1 a t = true := by
  rw [insertIgnore_fst, hasKey_append, h, Bool.true_or]

theorem insertIgnore_all_conflict {rows : List Row} :
    ∀ {arch : List Row},
      (∀ r ∈ rows, hasKey arch r.attribute_id r.timestamp = true) →
      insertIgnore arch rows = (arch, []) := by
  induction rows with
  | nil => intro arch _; rfl
  | cons q rest ih =>
    intro arch h
    have hq := h q (List.mem_cons_self _ _)
    simp only [insertIgnore, hq, if_true]
    exact ih (fun r hr => h r (List.mem_cons_of_mem _ hr))

theorem insertIgnore_mem_key {rows : List Row} :
    ∀ {arch : List Row} (r : Row), r ∈ rows →
      hasKey (insertIgnore arch rows).1 r.attribute_id r.timestamp = true := by
  induction rows with
  | nil => intro arch r h; simp at h
  | cons q rest ih =>
    intro arch r h
    rcases List.mem_cons.mp h with h | h
    · subst h
      by_cases hk : hasKey arch r.attribute_id r.timestamp = true
      · simp only [insertIgnore, hk, if_true]
        exact insertIgnore_hasKey_mono rest hk
      · simp only [insertIgnore, hk, if_false]
        exact insertIgnore_hasKey_mono rest
          (by rw [hasKey_append]; simp [hasKey])
    · by_cases hk : hasKey arch q.attribute_id q.timestamp = true
      · simp only [insertIgnore, hk, if_true]
        exact ih r h
      · simp only [insertIgnore, hk, if_false]
        exact ih r h

theorem insertIgnore_fresh {d : Nat} {rows : List Row} :
    ∀ {arch : List Row},
      (∀ r ∈ rows, r.attribute_id = d) →
      (rows.map (fun r => r.timestamp)).Nodup →
      (∀ r ∈ rows, hasKey arch d r.timestamp = false) →
      insertIgnore arch rows = (arch ++ rows, rows) := by
  induction rows with
  | nil => intro arch _ _ _; simp [insertIgnore]
  | cons q rest ih =>
    intro arch hattr hnodup hfresh
    have hqd : q.attribute_id = d := hattr q (List.mem_cons_self _ _)
    have hk : hasKey arch q.attribute_id q.timestamp = false := by
      rw [hqd]; exact hfresh q (List.mem_cons_self _ _)
    simp only [insertIgnore, hk, Bool.false_eq_true, if_false]
    have hrec := @ih (arch ++ [q])
      (fun r hr => hattr r (List.mem_cons_of_mem _ hr))
      (by simpa using hnodup.of_cons)
      (fun r hr => by
        rw [hasKey_append]
        have h1 : hasKey arch d r.timestamp = false :=
          hfresh r (List.mem_cons_of_mem _ hr)
        have h2 : hasKey [q] d r.timestamp = false := by
          simp only [List.map_cons, List.nodup_cons, List.mem_map] at hnodup
          have hne : q.timestamp ≠ r.timestamp := by
            intro hcon
            exact hnodup.1 ⟨r, hr, hcon.symm⟩
          simp [hasKey, hne, hqd]
        rw [h1, h2]
        rfl)
    rw [hrec]
    simp

/-!
Lemmas about distinctTimestamps and backfillRows.
-/

theorem distinctTimestamps_mem {arch : List Row} {ids : List Nat} {t : Nat} :
    t ∈ distinctTimestamps arch ids ↔
      ∃ r ∈ arch, r.attribute_id ∈ ids ∧ r.timestamp = t := by
  simp only [distinctTimestamps, List.mem_dedup, List.mem_map, List.mem_filter]
  constructor
  · rintro ⟨r, ⟨hr, hc⟩, ht⟩
    exact ⟨r, hr, List.elem_iff.mp hc, ht⟩
  · rintro ⟨r, hr, hc, ht⟩
    exact ⟨r, ⟨hr, List.elem_iff.mpr hc⟩, ht⟩

theorem backfillRows_attr {arch : List Row} {d : Nat} {e : Expr} :
    ∀ r ∈ backfillRows arch d e, r.attribute_id = d := by
  intro r hr
  simp only [backfillRows, List.mem_filterMap] at hr
  rcases hr with ⟨t, _, hf⟩
  cases he : e.eval (fun i => lookupValue arch i t) with
  | none => rw [he] at hf; cases hf
  | some v =>
    rw [he] at hf
    cases hf
    rfl

theorem backfillRows_ts_sublist (arch : List Row) (d : Nat) (e : Expr) :
    ((backfillRows arch d e).map (fun r => r.timestamp)).Sublist
      (distinctTimestamps arch e.refs) := by
  rw [backfillRows]
  generalize distinctTimestamps arch e.refs = ts
  induction ts with
  | nil => simp
  | cons t rest ih =>
    simp only [List.filterMap_cons]
    cases he : e.eval (fun i => lookupValue arch i t) with
    | none => exact ih.cons t
    | some v => simpa using ih.cons₂ t

theorem backfillRows_ts_nodup (arch : List Row) (d : Nat) (e : Expr) :
    ((backfillRows arch d e).map (fun r => r.timestamp)).Nodup :=
  (backfillRows_ts_sublist arch d e).nodup (List.nodup_dedup _)

theorem backfillRows_mem_iff {arch : List Row} {d : Nat} {e : Expr} {r : Row} :
    r ∈ backfillRows arch d e ↔
      ∃ t ∈ distinctTimestamps arch e.refs, ∃ v,
        e.eval (fun i => lookupValue arch i t) = some v ∧ r = ⟨d, t, some v⟩ := by
  simp only [backfillRows, List.mem_filterMap]
  constructor
  · rintro ⟨t, ht, hf⟩
    cases he : e.eval (fun i => lookupValue arch i t) with
    | none => rw [he] at hf; cases hf
    | some v =>
      rw [he] at hf
      cases hf
      exact ⟨t, ht, v, he, rfl⟩
  · rintro ⟨t, ht, v, he, hr⟩
    refine ⟨t, ht, ?_⟩
    subst hr
    rw [he]

/-!
Lemmas about single-row appends.
-/

theorem hasKey_single (row : Row) (x s : Nat) :
    hasKey [row] x s = (row.attribute_id == x && row.timestamp == s) := by
  simp [hasKey]

theorem hasKey_append_single (arch : List Row) (row : Row) (x s : Nat) :
    hasKey (arch ++ [row]) x s =
      (hasKey arch x s || (row.attribute_id == x && row.timestamp == s)) := by
  rw [hasKey_append, hasKey_single]

theorem keyBool_eq_false {row : Row} {x s : Nat}
    (h : ¬(row.attribute_id = x ∧ row.timestamp = s)) :
    (row.attribute_id == x && row.timestamp == s) = false := by
  rw [Bool.and_eq_false_iff]
  by_cases h1 : row.attribute_id = x
  · exact Or.inr (beq_eq_false_iff_ne.mpr (fun h2 => h ⟨h1, h2⟩))
  · exact Or.inl (beq_eq_false_iff_ne.mpr h1)

theorem lookupValue_append_single_ne {arch : List Row} {row : Row} {x s : Nat}
    (h : ¬(row.attribute_id = x ∧ row.timestamp = s)) :
    lookupValue (arch ++ [row]) x s = lookupValue arch x s := by
  by_cases hk : hasKey arch x s = true
  · exact lookupValue_append_left _ hk
  · rw [Bool.not_eq_true] at hk
    rw [lookupValue_append_right _ hk, lookupValue_eq_none_of_hasKey_false hk]
    simp [lookupValue, keyBool_eq_false h]

theorem hasKey_append_single_ne {arch : List Row} {row : Row} {x s : Nat}
    (h : ¬(row.attribute_id = x ∧ row.timestamp = s)) :
    hasKey (arch ++ [row]) x s = hasKey arch x s := by
  rw [hasKey_append_single, keyBool_eq_false h, Bool.or_false]

theorem lookupValue_append_single_self {arch : List Row} {a t : Nat}
    (v : Option ℚ) (hk : hasKey arch a t = false) :
    lookupValue (arch ++ [⟨a, t, v⟩]) a t = v := by
  rw [lookupValue_append_right _ hk]
  simp [lookupValue]

/-!
Lemmas about the trigger cascade: every run of fireStack is a sequence
of derived-id upserts at the event timestamp.
-/

theorem TrigWrites.trans {allT : List Trigger} {t : Nat} {a b c : List Row}
    (h1 : TrigWrites allT t a b) (h2 : TrigWrites allT t b c) :
    TrigWrites allT t a c := by
  induction h2 with
  | refl => exact h1
  | update arch2 tr v htr h hk ih => exact .update arch2 tr v htr ih hk
  | insert arch2 tr v htr h hk ih => exact .insert arch2 tr v htr ih hk

theorem fireStack_writes (allT : List Trigger) :
    ∀ (fuel : Nat) (stack : List (List Trigger × Nat)) (t : Nat) (arch : List Row),
      (∀ fr ∈ stack, ∀ tr ∈ fr.1, tr ∈ allT) →
      TrigWrites allT t arch (fireStack allT fuel stack t arch) := by
  intro fuel
  induction fuel with
  | zero =>
    intro stack t arch hsub
    cases stack with
    | nil => exact .refl
    | cons fr rest => exact .refl
  | succ fuel ih =>
    intro stack t arch hsub
    match stack with
    | [] => exact .refl
    | ([], a) :: rest =>
      rw [fireStack]
      exact ih rest t arch (fun fr hfr => hsub fr (List.mem_cons_of_mem _ hfr))
    | (tr :: trs, a) :: rest =>
      have htr : tr ∈ allT :=
        hsub (tr :: trs, a) (List.mem_cons_self _ _) tr (List.mem_cons_self _ _)
      have hsub2 : ∀ fr ∈ ((trs, a) :: rest), ∀ tr2 ∈ fr.1, tr2 ∈ allT := by
        intro fr hfr tr2 htr2
        rcases List.mem_cons.mp hfr with h | h
        · subst h
          exact hsub (tr :: trs, a) (List.mem_cons_self _ _) tr2
            (List.mem_cons_of_mem _ htr2)
        · exact hsub fr (List.mem_cons_of_mem _ h) tr2 htr2
      by_cases hg : a ∈ tr.formula.refs
      · cases he : tr.formula.eval (fun i => lookupValue arch i t) with
        | none =>
          simp only [fireStack, hg, if_true, he]
          exact ih _ t arch hsub2
        | some v =>
          by_cases hk : hasKey arch tr.derived_id t = true
          · simp only [fireStack, hg, if_true, he, hk]
            have step : TrigWrites allT t arch
                (updateValue arch tr.derived_id t (some v)) :=
              .update arch tr v htr .refl hk
            exact step.trans (ih _ t _ hsub2)
          · have hk2 : hasKey arch tr.derived_id t = false := by
              rw [← Bool.not_eq_true]; exact hk
            simp only [fireStack, hg, if_true, he, hk2]
            have step : TrigWrites allT t arch
                (arch ++ [⟨tr.derived_id, t, some v⟩]) :=
              .insert arch tr v htr .refl hk2
            refine step.trans (ih _ t _ ?_)
            intro fr hfr tr2 htr2
            rcases List.mem_cons.mp hfr with h | h
            · subst h
              exact htr2
            · exact hsub2 fr h tr2 htr2
      · simp only [fireStack, hg, if_false]
        exact ih _ t arch hsub2

theorem TrigWrites.keyUnique {allT : List Trigger} {t : Nat} {a b : List Row}
    (h : TrigWrites allT t a b) (hu : KeyUnique a) : KeyUnique b := by
  induction h with
  | refl => exact hu
  | update arch2 tr v htr h1 hk ih => exact KeyUnique_updateValue _ _ _ ih
  | insert arch2 tr v htr h1 hk ih => exact KeyUnique_append_singleton _ ih hk

theorem TrigWrites.rowsOf_eq {allT : List Trigger} {t x : Nat} {a b : List Row}
    (hx : ∀ tr ∈ allT, tr.derived_id ≠ x) (h : TrigWrites allT t a b) :
    rowsOf b x = rowsOf a x := by
  induction h with
  | refl => rfl
  | update arch2 tr v htr h1 hk ih =>
    rw [rowsOf_updateValue_ne _ _ _ (hx tr htr), ih]
  | insert arch2 tr v htr h1 hk ih =>
    rw [rowsOf_append_ne _ (by
      intro r hr
      rw [List.mem_singleton] at hr
      subst hr
      exact hx tr htr), ih]

theorem TrigWrites.lookup_ne_attr {allT : List Trigger} {t x : Nat}
    {a b : List Row} (s : Nat) (hx : ∀ tr ∈ allT, tr.derived_id ≠ x)
    (h : TrigWrites allT t a b) : lookupValue b x s = lookupValue a x s := by
  induction h with
  | refl => rfl
  | update arch2 tr v htr h1 hk ih =>
    rw [lookupValue_updateValue_ne_attr _ _ _ _ (Ne.symm (hx tr htr)), ih]
  | insert arch2 tr v htr h1 hk ih =>
    rw [lookupValue_append_single_ne (by
      intro hcon
      exact hx tr htr hcon.1), ih]

theorem TrigWrites.hasKey_ne_attr {allT : List Trigger} {t x : Nat}
    {a b : List Row} (s : Nat) (hx : ∀ tr ∈ allT, tr.derived_id ≠ x)
    (h : TrigWrites allT t a b) : hasKey b x s = hasKey a x s := by
  induction h with
  | refl => rfl
  | update arch2 tr v htr h1 hk ih => rw [hasKey_updateValue, ih]
  | insert arch2 tr v htr h1 hk ih =>
    rw [hasKey_append_single_ne (by
      intro hcon
      exact hx tr htr hcon.1), ih]

theorem TrigWrites.lookup_ne_ts {allT : List Trigger} {t : Nat} {a b : List Row}
    {s : Nat} (x : Nat) (hs : s ≠ t) (h : TrigWrites allT t a b) :
    lookupValue b x s = lookupValue a x s := by
  induction h with
  | refl => rfl
  | update arch2 tr v htr h1 hk ih =>
    rw [lookupValue_updateValue_ne_ts _ _ _ _ hs, ih]
  | insert arch2 tr v htr h1 hk ih =>
    rw [lookupValue_append_single_ne (by
      intro hcon
      exact hs hcon.2.symm), ih]

theorem TrigWrites.hasKey_ne_ts {allT : List Trigger} {t : Nat} {a b : List Row}
    {s : Nat} (x : Nat) (hs : s ≠ t) (h : TrigWrites allT t a b) :
    hasKey b x s = hasKey a x s := by
  induction h with
  | refl => rfl
  | update arch2 tr v htr h1 hk ih => rw [hasKey_updateValue, ih]
  | insert arch2 tr v htr h1 hk ih =>
    rw [hasKey_append_single_ne (by
      intro hcon
      exact hs hcon.2.symm), ih]

theorem TrigWrites.hasKey_mono {allT : List Trigger} {t : Nat} {a b : List Row}
    {x s : Nat} (h : TrigWrites allT t a b) (hx : hasKey a x s = true) :
    hasKey b x s = true := by
  induction h with
  | refl => exact hx
  | update arch2 tr v htr h1 hk ih => rw [hasKey_updateValue]; exact ih
  | insert arch2 tr v htr h1 hk ih => rw [hasKey_append, ih, Bool.true_or]

/-!
Characterisation of cascade-free runs: a frame whose event attribute is
referenced by no formula only consumes fuel, and when no derived id is
referenced by any formula (derived attributes are computed from source
attributes only) a whole event reduces to a left fold of single trigger
steps.
-/

theorem fireStack_dead_frame (allT : List Trigger) :
    ∀ (trigs : List Trigger) (fuel : Nat) (a : Nat)
      (rest : List (List Trigger × Nat)) (t : Nat) (arch : List Row),
      (∀ tr ∈ trigs, a ∉ tr.formula.refs) →
      trigs.length + 1 ≤ fuel →
      fireStack allT fuel ((trigs, a) :: rest) t arch =
        fireStack allT (fuel - (trigs.length + 1)) rest t arch := by
  intro trigs
  induction trigs with
  | nil =>
    intro fuel a rest t arch hg hf
    match fuel, hf with
    | fuel + 1, _ =>
      rw [fireStack]
      simp
  | cons tr trs ih =>
    intro fuel a rest t arch hg hf
    match fuel, hf with
    | fuel + 1, hf =>
      have hga : a ∉ tr.formula.refs := hg tr (List.mem_cons_self _ _)
      simp only [fireStack, hga, if_false]
      rw [ih fuel a rest t arch (fun tr2 h => hg tr2 (List.mem_cons_of_mem _ h))
        (by simp only [List.length_cons] at hf; omega)]
      congr 1
      simp only [List.length_cons]
      omega

theorem fireStack_flat_run (allT : List Trigger) :
    ∀ (trigs : List Trigger) (fuel : Nat) (a t : Nat) (arch : List Row),
      FlatTriggers allT →
      (∀ tr ∈ trigs, tr ∈ allT) →
      trigs.length * (allT.length + 2) + 1 ≤ fuel →
      fireStack allT fuel [(trigs, a)] t arch =
        trigs.foldl (fun acc tr => triggerStep acc tr a t) arch := by
  intro trigs
  induction trigs with
  | nil =>
    intro fuel a t arch hflat hsub hf
    match fuel, hf with
    | fuel + 1, _ =>
      rw [fireStack]
      cases fuel <;> rfl
  | cons tr trs ih =>
    intro fuel a t arch hflat hsub hf
    have hexp : (trs.length + 1) * (allT.length + 2) =
        trs.length * (allT.length + 2) + (allT.length + 2) := Nat.succ_mul _ _
    simp only [List.length_cons] at hf
    match fuel, hf with
    | fuel + 1, hf =>
      have htr : tr ∈ allT := hsub tr (List.mem_cons_self _ _)
      have hsub2 : ∀ tr2 ∈ trs, tr2 ∈ allT :=
        fun tr2 h => hsub tr2 (List.mem_cons_of_mem _ h)
      by_cases hg : a ∈ tr.formula.refs
      · cases he : tr.formula.eval (fun i => lookupValue arch i t) with
        | none =>
          simp only [fireStack, hg, if_true, he]
          rw [ih fuel a t arch hflat hsub2 (by omega)]
          simp [triggerStep, hg, he]
        | some v =>
          by_cases hk : hasKey arch tr.derived_id t = true
          · simp only [fireStack, hg, if_true, he, hk]
            rw [ih fuel a t _ hflat hsub2 (by omega)]
            simp only [List.foldl_cons, triggerStep, hg, if_true, he, hk, if_pos rfl]
          · have hk2 : hasKey arch tr.derived_id t = false := by
              rw [← Bool.not_eq_true]; exact hk
            simp only [fireStack, hg, if_true, he, hk2, Bool.false_eq_true, if_false]
            have hdead := fireStack_dead_frame allT allT fuel tr.derived_id
              [(trs, a)] t (arch ++ [⟨tr.derived_id, t, some v⟩])
              (fun tr2 h2 => hflat tr htr tr2 h2) (by omega)
            rw [hdead]
            rw [ih (fuel - (allT.length + 1)) a t _ hflat hsub2 (by omega)]
            simp only [List.foldl_cons, triggerStep, hg, if_true, he, hk2,
              Bool.false_eq_true, if_false]
      · simp only [fireStack, hg, if_false]
        rw [ih fuel a t arch hflat hsub2 (by omega)]
        simp [triggerStep, hg]

theorem insertArchiveRow_flat (db : DB) (a t : Nat) (v : Option ℚ)
    (hflat : FlatTriggers db.triggers) :
    (insertArchiveRow db a t v).archive =
      db.triggers.foldl (fun acc tr => triggerStep acc tr a t)
        (db.archive ++ [⟨a, t, v⟩]) := by
  have hexp : (db.triggers.length + 1) * (db.triggers.length + 2) =
      db.triggers.length * (db.triggers.length + 2) + (db.triggers.length + 2) :=
    Nat.succ_mul _ _
  simp only [insertArchiveRow]
  exact fireStack_flat_run db.triggers db.triggers (triggerFuel db.triggers) a t
    (db.archive ++ [⟨a, t, v⟩]) hflat (fun tr h => h)
    (by simp only [triggerFuel]; omega)

theorem fireStack_dead_event (allT : List Trigger) (fuel : Nat) (d t : Nat)
    (arch : List Row) (hd : ∀ tr ∈ allT, d ∉ tr.formula.refs)
    (hf : allT.length + 1 ≤ fuel) :
    fireStack allT fuel [(allT, d)] t arch = arch := by
  rw [fireStack_dead_frame allT allT fuel d [] t arch hd hf]
  cases h : fuel - (allT.length + 1) <;> rfl

theorem fireStack_step_update (allT : List Trigger) (fuel : Nat) (tr : Trigger)
    (trs : List Trigger) (rest : List (List Trigger × Nat)) (a t : Nat)
    (arch : List Row) (v : ℚ) (hg : a ∈ tr.formula.refs)
    (hev : tr.formula.eval (fun i => lookupValue arch i t) = some v)
    (hk : hasKey arch tr.derived_id t = true) :
    fireStack allT (fuel + 1) ((tr :: trs, a) :: rest) t arch =
      fireStack allT fuel ((trs, a) :: rest) t
        (updateValue arch tr.derived_id t (some v)) := by
  simp only [fireStack, hg, hev, hk, if_true]

theorem fireStack_step_skip (allT : List Trigger) (fuel : Nat) (tr : Trigger)
    (trs : List Trigger) (rest : List (List Trigger × Nat)) (a t : Nat)
    (arch : List Row) (hg : a ∉ tr.formula.refs) :
    fireStack allT (fuel + 1) ((tr :: trs, a) :: rest) t arch =
      fireStack allT fuel ((trs, a) :: rest) t arch := by
  simp only [fireStack, hg, if_false]

/-!
Lemmas about single trigger steps and their left folds.
-/

theorem triggerStep_lookup_ne_attr {tr : Trigger} {x : Nat} (arch : List Row)
    (a t s : Nat) (hx : tr.derived_id ≠ x) :
    lookupValue (triggerStep arch tr a t) x s = lookupValue arch x s := by
  by_cases hg : a ∈ tr.formula.refs
  · cases he : tr.formula.eval (fun i => lookupValue arch i t) with
    | none => simp only [triggerStep, hg, if_true, he]
    | some v =>
      by_cases hk : hasKey arch tr.derived_id t = true
      · simp only [triggerStep, hg, if_true, he, hk, if_pos rfl]
        exact lookupValue_updateValue_ne_attr _ _ _ _ (Ne.symm hx)
      · have hk2 : hasKey arch tr.derived_id t = false := by
          rw [← Bool.not_eq_true]; exact hk
        simp only [triggerStep, hg, if_true, he, hk2, Bool.false_eq_true, if_false]
        exact lookupValue_append_single_ne (fun hcon => hx hcon.1)
  · simp only [triggerStep, hg, if_false]

theorem triggerStep_hasKey_ne_attr {tr : Trigger} {x : Nat} (arch : List Row)
    (a t s : Nat) (hx : tr.derived_id ≠ x) :
    hasKey (triggerStep arch tr a t) x s = hasKey arch x s := by
  by_cases hg : a ∈ tr.formula.refs
  · cases he : tr.formula.eval (fun i => lookupValue arch i t) with
    | none => simp only [triggerStep, hg, if_true, he]
    | some v =>
      by_cases hk : hasKey arch tr.derived_id t = true
      · simp only [triggerStep, hg, if_true, he, hk, if_pos rfl]
        exact hasKey_updateValue _ _ _ _ _ _
      · have hk2 : hasKey arch tr.derived_id t = false := by
          rw [← Bool.not_eq_true]; exact hk
        simp only [triggerStep, hg, if_true, he, hk2, Bool.false_eq_true, if_false]
        exact hasKey_append_single_ne (fun hcon => hx hcon.1)
  · simp only [triggerStep, hg, if_false]

theorem triggerStep_rowsOf_ne {tr : Trigger} {x : Nat} (arch : List Row)
    (a t : Nat) (hx : tr.derived_id ≠ x) :
    rowsOf (triggerStep arch tr a t) x = rowsOf arch x := by
  by_cases hg : a ∈ tr.formula.refs
  · cases he : tr.formula.eval (fun i => lookupValue arch i t) with
    | none => simp only [triggerStep, hg, if_true, he]
    | some v =>
      by_cases hk : hasKey arch tr.derived_id t = true
      · simp only [triggerStep, hg, if_true, he, hk, if_pos rfl]
        exact rowsOf_updateValue_ne _ _ _ hx
      · have hk2 : hasKey arch tr.derived_id t = false := by
          rw [← Bool.not_eq_true]; exact hk
        simp only [triggerStep, hg, if_true, he, hk2, Bool.false_eq_true, if_false]
        refine rowsOf_append_ne _ ?_
        intro r hr
        rw [List.mem_singleton] at hr
        subst hr
        exact hx
  · simp only [triggerStep, hg, if_false]

theorem foldSteps_lookup_ne {x : Nat} :
    ∀ (trigs : List Trigger) (arch : List Row) (a t s : Nat),
      (∀ tr ∈ trigs, tr.derived_id ≠ x) →
      lookupValue (trigs.foldl (fun acc tr => triggerStep acc tr a t) arch) x s =
        lookupValue arch x s := by
  intro trigs
  induction trigs with
  | nil => intro arch a t s hx; rfl
  | cons tr trs ih =>
    intro arch a t s hx
    rw [List.foldl_cons]
    rw [ih _ a t s (fun tr2 h => hx tr2 (List.mem_cons_of_mem _ h))]
    exact triggerStep_lookup_ne_attr arch a t s (hx tr (List.mem_cons_self _ _))

theorem foldSteps_hasKey_ne {x : Nat} :
    ∀ (trigs : List Trigger) (arch : List Row) (a t s : Nat),
      (∀ tr ∈ trigs, tr.derived_id ≠ x) →
      hasKey (trigs.foldl (fun acc tr => triggerStep acc tr a t) arch) x s =
        hasKey arch x s := by
  intro trigs
  induction trigs with
  | nil => intro arch a t s hx; rfl
  | cons tr trs ih =>
    intro arch a t s hx
    rw [List.foldl_cons]
    rw [ih _ a t s (fun tr2 h => hx tr2 (List.mem_cons_of_mem _ h))]
    exact triggerStep_hasKey_ne_attr arch a t s (hx tr (List.mem_cons_self _ _))

theorem foldSteps_rowsOf_ne {x : Nat} :
    ∀ (trigs : List Trigger) (arch : List Row) (a t : Nat),
      (∀ tr ∈ trigs, tr.derived_id ≠ x) →
      rowsOf (trigs.foldl (fun acc tr => triggerStep acc tr a t) arch) x =
        rowsOf arch x := by
  intro trigs
  induction trigs with
  | nil => intro arch a t hx; rfl
  | cons tr trs ih =>
    intro arch a t hx
    rw [List.foldl_cons]
    rw [ih _ a t (fun tr2 h => hx tr2 (List.mem_cons_of_mem _ h))]
    exact triggerStep_rowsOf_ne arch a t (hx tr (List.mem_cons_self _ _))

theorem triggerStep_lookup_ne_ts {s t : Nat} (arch : List Row) (tr : Trigger)
    (a x : Nat) (hs : s ≠ t) :
    lookupValue (triggerStep arch tr a t) x s = lookupValue arch x s := by
  by_cases hg : a ∈ tr.formula.refs
  · cases he : tr.formula.eval (fun i => lookupValue arch i t) with
    | none => simp only [triggerStep, hg, if_true, he]
    | some v =>
      by_cases hk : hasKey arch tr.derived_id t = true
      · simp only [triggerStep, hg, if_true, he, hk, if_pos rfl]
        exact lookupValue_updateValue_ne_ts _ _ _ _ hs
      · have hk2 : hasKey arch tr.derived_id t = false := by
          rw [← Bool.not_eq_true]; exact hk
        simp only [triggerStep, hg, if_true, he, hk2, Bool.false_eq_true, if_false]
        exact lookupValue_append_single_ne (fun hcon => hs hcon.2.symm)
  · simp only [triggerStep, hg, if_false]

theorem triggerStep_hasKey_ne_ts {s t : Nat} (arch : List Row) (tr : Trigger)
    (a x : Nat) (hs : s ≠ t) :
    hasKey (triggerStep arch tr a t) x s = hasKey arch x s := by
  by_cases hg : a ∈ tr.formula.refs
  · cases he : tr.formula.eval (fun i => lookupValue arch i t) with
    | none => simp only [triggerStep, hg, if_true, he]
    | some v =>
      by_cases hk : hasKey arch tr.derived_id t = true
      · simp only [triggerStep, hg, if_true, he, hk, if_pos rfl]
        exact hasKey_updateValue _ _ _ _ _ _
      · have hk2 : hasKey arch tr.derived_id t = false := by
          rw [← Bool.not_eq_true]; exact hk
        simp only [triggerStep, hg, if_true, he, hk2, Bool.false_eq_true, if_false]
        exact hasKey_append_single_ne (fun hcon => hs hcon.2.symm)
  · simp only [triggerStep, hg, if_false]

theorem foldSteps_lookup_ne_ts {s t : Nat} (hs : s ≠ t) :
    ∀ (trigs : List Trigger) (arch : List Row) (a x : Nat),
      lookupValue (trigs.foldl (fun acc tr => triggerStep acc tr a t) arch) x s =
        lookupValue arch x s := by
  intro trigs
  induction trigs with
  | nil => intro arch a x; rfl
  | cons tr trs ih =>
    intro arch a x
    rw [List.foldl_cons, ih _ a x]
    exact triggerStep_lookup_ne_ts arch tr a x hs

theorem foldSteps_hasKey_ne_ts {s t : Nat} (hs : s ≠ t) :
    ∀ (trigs : List Trigger) (arch : List Row) (a x : Nat),
      hasKey (trigs.foldl (fun acc tr => triggerStep acc tr a t) arch) x s =
        hasKey arch x s := by
  intro trigs
  induction trigs with
  | nil => intro arch a x; rfl
  | cons tr trs ih =>
    intro arch a x
    rw [List.foldl_cons, ih _ a x]
    exact triggerStep_hasKey_ne_ts arch tr a x hs

/-!
The behaviour of a full flat event for each registered derived
attribute.
-/

theorem triggerStep_skip {tr : Trigger} {a : Nat} (arch : List Row) (t : Nat)
    (hg : a ∉ tr.formula.refs) : triggerStep arch tr a t = arch := by
  simp only [triggerStep, hg, if_false]

theorem triggerStep_none {arch : List Row} {tr : Trigger} {a t : Nat}
    (hg : a ∈ tr.formula.refs)
    (hev : tr.formula.eval (fun i => lookupValue arch i t) = none) :
    triggerStep arch tr a t = arch := by
  simp only [triggerStep, hg, if_true, hev]

theorem triggerStep_fires {arch : List Row} {tr : Trigger} {a t : Nat} {v0 : ℚ}
    (hg : a ∈ tr.formula.refs)
    (hev : tr.formula.eval (fun i => lookupValue arch i t) = some v0) :
    hasKey (triggerStep arch tr a t) tr.derived_id t = true ∧
      lookupValue (triggerStep arch tr a t) tr.derived_id t = some v0 := by
  by_cases hk : hasKey arch tr.derived_id t = true
  · simp only [triggerStep, hg, if_true, hev, hk, if_pos rfl]
    exact ⟨by rw [hasKey_updateValue]; exact hk, lookupValue_updateValue_self _ hk⟩
  · have hk2 : hasKey arch tr.derived_id t = false := by
      rw [← Bool.not_eq_true]; exact hk
    simp only [triggerStep, hg, if_true, hev, hk2, Bool.false_eq_true, if_false]
    refine ⟨?_, lookupValue_append_single_self _ hk2⟩
    rw [hasKey_append_single]
    simp

theorem nodup_split_ne {trigs l1 l2 : List Trigger} {tr : Trigger}
    (hnod : NodupDerived trigs) (hsplit : trigs = l1 ++ tr :: l2) :
    (∀ tr2 ∈ l1, tr2.derived_id ≠ tr.derived_id) ∧
      (∀ tr2 ∈ l2, tr2.derived_id ≠ tr.derived_id) := by
  rw [NodupDerived, derivedIds, hsplit, List.map_append, List.map_cons,
    List.nodup_append] at hnod
  rcases hnod with ⟨h1, h2, hdisj⟩
  rw [List.nodup_cons] at h2
  constructor
  · intro tr2 htr2 heq
    have hmem : tr2.derived_id ∈ l1.map (fun tr3 => tr3.derived_id) :=
      List.mem_map.mpr ⟨tr2, htr2, rfl⟩
    have := hdisj hmem
    rw [heq] at this
    exact this (List.mem_cons_self _ _)
  · intro tr2 htr2 heq
    exact h2.1 (heq ▸ List.mem_map.mpr ⟨tr2, htr2, rfl⟩)

theorem flat_event_fires {trigs : List Trigger} {arch0 : List Row} {a t : Nat}
    (hflat : FlatTriggers trigs) (hnod : NodupDerived trigs)
    {tr : Trigger} (htr : tr ∈ trigs) (hg : a ∈ tr.formula.refs) :
    ((∀ v0 : ℚ, tr.formula.eval (fun i => lookupValue arch0 i t) = some v0 →
      hasKey (trigs.foldl (fun acc tr2 => triggerStep acc tr2 a t) arch0)
          tr.derived_id t = true ∧
        lookupValue (trigs.foldl (fun acc tr2 => triggerStep acc tr2 a t) arch0)
          tr.derived_id t = some v0) ∧
    (tr.formula.eval (fun i => lookupValue arch0 i t) = none →
      rowsOf (trigs.foldl (fun acc tr2 => triggerStep acc tr2 a t) arch0)
          tr.derived_id = rowsOf arch0 tr.derived_id ∧
        hasKey (trigs.foldl (fun acc tr2 => triggerStep acc tr2 a t) arch0)
          tr.derived_id t = hasKey arch0 tr.derived_id t)) := by
  obtain ⟨l1, l2, hsplit⟩ := List.append_of_mem htr
  obtain ⟨hd1, hd2⟩ := nodup_split_ne hnod hsplit
  have hsubl1 : ∀ tr2 ∈ l1, tr2 ∈ trigs := by
    intro tr2 h2
    rw [hsplit]
    exact List.mem_append.mpr (Or.inl h2)
  have hrefs : ∀ i ∈ tr.formula.refs, ∀ tr2 ∈ trigs, tr2.derived_id ≠ i := by
    intro i hi tr2 htr2 heq
    exact (hflat tr2 htr2 tr htr) (heq ▸ hi)
  have hfold : trigs.foldl (fun acc tr2 => triggerStep acc tr2 a t) arch0 =
      l2.foldl (fun acc tr2 => triggerStep acc tr2 a t)
        (triggerStep (l1.foldl (fun acc tr2 => triggerStep acc tr2 a t) arch0)
          tr a t) := by
    rw [hsplit, List.foldl_append, List.foldl_cons]
  have henv : ∀ i ∈ tr.formula.refs,
      lookupValue (l1.foldl (fun acc tr2 => triggerStep acc tr2 a t) arch0) i t =
        lookupValue arch0 i t := by
    intro i hi
    exact foldSteps_lookup_ne l1 arch0 a t t
      (fun tr2 h2 => hrefs i hi tr2 (hsubl1 tr2 h2))
  have heval : tr.formula.eval (fun i =>
        lookupValue (l1.foldl (fun acc tr2 => triggerStep acc tr2 a t) arch0) i t) =
      tr.formula.eval (fun i => lookupValue arch0 i t) :=
    Expr.eval_congr tr.formula henv
  constructor
  · intro v0 hev
    have hev2 : tr.formula.eval (fun i =>
        lookupValue (l1.foldl (fun acc tr2 => triggerStep acc tr2 a t) arch0) i t) =
        some v0 := by rw [heval, hev]
    have hstep := triggerStep_fires hg hev2
    rw [hfold]
    constructor
    · rw [foldSteps_hasKey_ne l2 _ a t t hd2]
      exact hstep.1
    · rw [foldSteps_lookup_ne l2 _ a t t hd2]
      exact hstep.2
  · intro hev
    have hev2 : tr.formula.eval (fun i =>
        lookupValue (l1.foldl (fun acc tr2 => triggerStep acc tr2 a t) arch0) i t) =
        none := by rw [heval, hev]
    rw [hfold, triggerStep_none hg hev2]
    constructor
    · rw [foldSteps_rowsOf_ne l2 _ a t hd2, foldSteps_rowsOf_ne l1 _ a t hd1]
    · rw [foldSteps_hasKey_ne l2 _ a t t hd2, foldSteps_hasKey_ne l1 _ a t t hd1]

theorem flat_event_skip {trigs : List Trigger} {arch0 : List Row} {a t : Nat}
    (hnod : NodupDerived trigs) {tr : Trigger} (htr : tr ∈ trigs)
    (hg : a ∉ tr.formula.refs) :
    rowsOf (trigs.foldl (fun acc tr2 => triggerStep acc tr2 a t) arch0)
        tr.derived_id = rowsOf arch0 tr.derived_id ∧
      hasKey (trigs.foldl (fun acc tr2 => triggerStep acc tr2 a t) arch0)
        tr.derived_id t = hasKey arch0 tr.derived_id t := by
  obtain ⟨l1, l2, hsplit⟩ := List.append_of_mem htr
  obtain ⟨hd1, hd2⟩ := nodup_split_ne hnod hsplit
  have hfold : trigs.foldl (fun acc tr2 => triggerStep acc tr2 a t) arch0 =
      l2.foldl (fun acc tr2 => triggerStep acc tr2 a t)
        (triggerStep (l1.foldl (fun acc tr2 => triggerStep acc tr2 a t) arch0)
          tr a t) := by
    rw [hsplit, List.foldl_append, List.foldl_cons]
  rw [hfold, triggerStep_skip _ _ hg]
  constructor
  · rw [foldSteps_rowsOf_ne l2 _ a t hd2, foldSteps_rowsOf_ne l1 _ a t hd1]
  · rw [foldSteps_hasKey_ne l2 _ a t t hd2, foldSteps_hasKey_ne l1 _ a t t hd1]

/-!
Characterisation of backfill runs.
-/

theorem lookupValue_append_allne {x : Nat} :
    ∀ (l2 : List Row), (∀ r ∈ l2, r.attribute_id ≠ x) →
      ∀ (l1 : List Row) (t : Nat),
        lookupValue (l1 ++ l2) x t = lookupValue l1 x t := by
  intro l2
  induction l2 with
  | nil => intro _ l1 t; simp
  | cons r l2' ih =>
    intro h l1 t
    rw [show l1 ++ r :: l2' = (l1 ++ [r]) ++ l2' by simp]
    rw [ih (fun r2 h2 => h r2 (List.mem_cons_of_mem _ h2)) (l1 ++ [r]) t]
    exact lookupValue_append_single_ne
      (fun hcon => h r (List.mem_cons_self _ _) hcon.1)

theorem hasKey_append_allne {x : Nat} :
    ∀ (l2 : List Row), (∀ r ∈ l2, r.attribute_id ≠ x) →
      ∀ (l1 : List Row) (t : Nat), hasKey (l1 ++ l2) x t = hasKey l1 x t := by
  intro l2
  induction l2 with
  | nil => intro _ l1 t; simp
  | cons r l2' ih =>
    intro h l1 t
    rw [show l1 ++ r :: l2' = (l1 ++ [r]) ++ l2' by simp]
    rw [ih (fun r2 h2 => h r2 (List.mem_cons_of_mem _ h2)) (l1 ++ [r]) t]
    exact hasKey_append_single_ne
      (fun hcon => h r (List.mem_cons_self _ _) hcon.1)

theorem distinctTimestamps_append_allne {ids : List Nat} {l2 : List Row}
    (l1 : List Row) (h : ∀ r ∈ l2, ¬(r.attribute_id ∈ ids)) :
    distinctTimestamps (l1 ++ l2) ids = distinctTimestamps l1 ids := by
  rw [distinctTimestamps, distinctTimestamps, List.filter_append]
  have h2 : l2.filter (fun r => ids.contains r.attribute_id) = [] := by
    rw [List.filter_eq_nil_iff]
    intro r hr
    simp only [Bool.not_eq_true]
    rw [← Bool.not_eq_true]
    intro hc
    exact h r hr (List.elem_iff.mp hc)
  rw [h2, List.append_nil]

theorem backfill_ok_cases {db : DB} {d : Nat} {e : Expr} {pr : DB × Nat}
    (h : backfill_derived_attribute db d e = .ok pr) :
    (e.refs.isEmpty = true ∧ pr = (db, 0)) ∨
      (e.refs.isEmpty = false ∧
        e.refs.all (fun i => db.attrs.any (fun a => a.attribute_id == i)) = true ∧
        pr = ({ db with archive :=
            ((insertIgnore db.archive (backfillRows db.archive d e)).2.foldl
              (fun acc r => fireStack db.triggers (triggerFuel db.triggers)
                [(db.triggers, r.attribute_id)] r.timestamp acc)
              (insertIgnore db.archive (backfillRows db.archive d e)).1) },
          (insertIgnore db.archive (backfillRows db.archive d e)).2.length)) := by
  by_cases hemp : e.refs.isEmpty = true
  · left
    refine ⟨hemp, ?_⟩
    rw [backfill_derived_attribute, if_pos hemp] at h
    exact (Except.ok.inj h).symm
  · right
    have hemp2 : e.refs.isEmpty = false := by
      rw [← Bool.not_eq_true]; exact hemp
    by_cases hchk : e.refs.all (fun i => db.attrs.any (fun a => a.attribute_id == i)) = true
    · refine ⟨hemp2, hchk, ?_⟩
      rw [backfill_derived_attribute, if_neg hemp, if_pos hchk] at h
      exact (Except.ok.inj h).symm
    · rw [backfill_derived_attribute, if_neg hemp, if_neg hchk] at h
      cases h

theorem backfill_fire_id {db : DB} {d : Nat}
    (hd : ∀ tr ∈ db.triggers, d ∉ tr.formula.refs) :
    ∀ (rows2 : List Row), (∀ r ∈ rows2, r.attribute_id = d) →
      ∀ acc : List Row,
        rows2.foldl (fun acc r => fireStack db.triggers (triggerFuel db.triggers)
          [(db.triggers, r.attribute_id)] r.timestamp acc) acc = acc := by
  intro rows2
  induction rows2 with
  | nil => intro _ acc; rfl
  | cons r rest ih =>
    intro hattr acc
    rw [List.foldl_cons]
    have hra : r.attribute_id = d := hattr r (List.mem_cons_self _ _)
    rw [hra]
    have hexp : (db.triggers.length + 1) * (db.triggers.length + 2) =
        db.triggers.length * (db.triggers.length + 2) + (db.triggers.length + 2) :=
      Nat.succ_mul _ _
    rw [fireStack_dead_event db.triggers (triggerFuel db.triggers) d r.timestamp acc
      hd (by simp only [triggerFuel]; omega)]
    exact ih (fun r2 h2 => hattr r2 (List.mem_cons_of_mem _ h2)) acc

theorem backfillRows_empty_refs {arch : List Row} {d : Nat} {e : Expr}
    (h : e.refs.isEmpty = true) : backfillRows arch d e = [] := by
  rw [List.isEmpty_iff] at h
  have hts : distinctTimestamps arch e.refs = [] := by
    rw [distinctTimestamps, h]
    have : arch.filter (fun r => List.contains [] r.attribute_id) = [] := by
      rw [List.filter_eq_nil_iff]
      intro r hr
      simp [List.contains]
    rw [this]
    rfl
  rw [backfillRows, hts]
  rfl

theorem backfill_ok_fresh {db : DB} {d : Nat} {e : Expr}
    (hchk : e.refs.isEmpty = true ∨
      e.refs.all (fun i => db.attrs.any (fun a => a.attribute_id == i)) = true)
    (hd : ∀ tr ∈ db.triggers, d ∉ tr.formula.refs)
    (hfresh : ∀ s, hasKey db.archive d s = false) :
    backfill_derived_attribute db d e =
      .ok ({ db with archive := (db.archive ++ backfillRows db.archive d e) },
        (backfillRows db.archive d e).length) := by
  by_cases hemp : e.refs.isEmpty = true
  · rw [backfill_derived_attribute, if_pos hemp, backfillRows_empty_refs hemp]
    simp
  · have hemp2 : e.refs.isEmpty = false := by
      rw [← Bool.not_eq_true]; exact hemp
    have hchk2 : e.refs.all (fun i => db.attrs.any (fun a => a.attribute_id == i)) = true :=
      hchk.resolve_left hemp
    rw [backfill_derived_attribute, if_neg hemp, if_pos hchk2]
    have hins : insertIgnore db.archive (backfillRows db.archive d e) =
        (db.archive ++ backfillRows db.archive d e, backfillRows db.archive d e) :=
      insertIgnore_fresh backfillRows_attr (backfillRows_ts_nodup _ _ _)
        (fun r hr => hfresh r.timestamp)
    rw [hins]
    simp only [backfill_fire_id hd (backfillRows db.archive d e) backfillRows_attr]

theorem string_length_zero {s : String} (h : s.length = 0) : s = "" := by
  cases s with
  | mk data =>
    cases data with
    | nil => rfl
    | cons c cs => simp [String.length] at h

theorem length_filter_split (l : List Row) (x : Nat) :
    (l.filter (fun r => r.attribute_id ≠ x)).length +
      (l.filter (fun r => r.attribute_id == x)).length = l.length := by
  induction l with
  | nil => rfl
  | cons r rs ih =>
    simp only [List.filter_cons]
    by_cases h : r.attribute_id = x
    · rw [if_neg (by simp [h]), if_pos (by simp [h])]
      simp only [List.length_cons]
      omega
    · rw [if_pos (by simp [h]), if_neg (by simp [h])]
      simp only [List.length_cons]
      omega

/-!
Claim C2.
-/

/-- C2 (code_bug evaluation): when a reload supplies the same two paths
`A|X` and `A|Y` but the rebuilt tree lists the attributes in the other
order, the restarted id sequence swaps the numeric ids (X: 1 → 2,
Y: 2 → 1).  The remap of update_archive_attribute_ids then applies the
two UPDATE statements sequentially against the live table: the first
one (1 → 2) merges X's history into Y's old id, and the second (2 → 1)
drags both histories to id 1.  Afterwards the attribute at path `A|X`
(new id 2) owns no archive rows at all, and both pre-reload rows sit
under id 1 — the pre-reload row set of `A|X` is not preserved under
path identity, contradicting the claim. -/
theorem C2_remap_swap_evaluation :
    attribute_path_mapping reloadOldElems reloadOldAttrs = [("A|X", 1), ("A|Y", 2)] ∧
    assocFind (attribute_path_mapping reloadNewElems reloadNewAttrs) "A|X" = some 2 ∧
    rowsOf reloadArch 1 = [⟨1, 10, some 1⟩] ∧
    update_archive_attribute_ids reloadNewElems reloadNewAttrs reloadArch
        (attribute_path_mapping reloadOldElems reloadOldAttrs)
      = [⟨1, 10, some 1⟩, ⟨1, 10, some 2⟩] ∧
    rowsOf (update_archive_attribute_ids reloadNewElems reloadNewAttrs reloadArch
        (attribute_path_mapping reloadOldElems reloadOldAttrs)) 2 = [] := by
  refine ⟨?_, ?_, ?_, ?_, ?_⟩
  · norm_num [attribute_path_mapping, reloadOldElems, reloadOldAttrs,
      attributeFullPath, elementPathAux, assocPut, List.find?, pathString] <;>
      decide
  · norm_num [attribute_path_mapping, reloadNewElems, reloadNewAttrs,
      attributeFullPath, elementPathAux, assocPut, assocFind, List.find?,
      pathString] <;> decide
  · decide
  · norm_num [update_archive_attribute_ids, attribute_path_mapping, reloadNewElems,
      reloadNewAttrs, reloadOldElems, reloadOldAttrs, reloadArch, attributeFullPath,
      elementPathAux, assocPut, assocFind, applyIdUpdate, List.find?,
      pathString] <;> decide
  · norm_num [update_archive_attribute_ids, attribute_path_mapping, reloadNewElems,
      reloadNewAttrs, reloadOldElems, reloadOldAttrs, reloadArch, attributeFullPath,
      elementPathAux, assocPut, assocFind, applyIdUpdate, List.find?, pathString,
      rowsOf] <;> decide

/-!
Claim C1.
-/

/-- C1 (counterexample): in dbNullRow, ArchiveRecords exist for BOTH
sources 7 and 8 of the formula `$7 + $8` at timestamp 1 (8's row has a
NULL value, as the ingestion feed produces for unreadable PI values),
yet backfilling the derived attribute 9 creates no derived row at all:
the claimed equivalence "derived row exists at t iff ArchiveRecords
exist for all sources at t" fails, because the code tests values, not
row existence. -/
theorem C1_counterexample :
    hasKey dbNullRow.archive 7 1 = true ∧
    hasKey dbNullRow.archive 8 1 = true ∧
    backfill_derived_attribute dbNullRow 9 (.add (.ref 7) (.ref 8)) =
      .ok (dbNullRow, 0) ∧
    hasKey dbNullRow.archive 9 1 = false := by
  refine ⟨by decide, by decide, ?_, by decide⟩
  norm_num [backfill_derived_attribute, dbNullRow, backfillRows, distinctTimestamps,
    insertIgnore, fireStack, triggerFuel, hasKey, lookupValue, Expr.eval, Expr.refs,
    List.dedup] <;> decide

/-- C1 (amended): strict-AND over values.  (1) After a backfill of a
fresh derived attribute d (no pre-existing d rows, d referenced by no
installed trigger), a derived row exists at t iff every source of the
formula has a non-NULL value at t — the row is never partially
computed.  (2) The live trigger path preserves this invariant for every
registered derived attribute across any committed source-row insert
(sources are non-derived ids, registrations are flat and uniquely
keyed, the insert respects the unique constraint). -/
theorem C1_strict_and_amended :
    (∀ (db : DB) (d : Nat) (e : Expr) (pr : DB × Nat),
      (∀ tr ∈ db.triggers, d ∉ tr.formula.refs) →
      (∀ s, hasKey db.archive d s = false) →
      e.refs ≠ [] →
      backfill_derived_attribute db d e = .ok pr →
      ∀ t, hasKey pr.1.archive d t = true ↔
        ∀ i ∈ e.refs, (lookupValue pr.1.archive i t).isSome = true) ∧
    (∀ (db : DB) (a t : Nat) (v : Option ℚ),
      FlatTriggers db.triggers → NodupDerived db.triggers →
      a ∉ derivedIds db.triggers →
      hasKey db.archive a t = false →
      DerivedInv db →
      DerivedInv (insertArchiveRow db a t v)) := by
  constructor
  · intro db d e pr hd hfresh href h4
    rcases backfill_ok_cases h4 with ⟨hemp, hpr⟩ | ⟨hemp, hchk, hpr⟩
    · exact absurd (List.isEmpty_iff.mp hemp) href
    · have heq := backfill_ok_fresh (Or.inr hchk) hd hfresh
      rw [heq] at h4
      have hpr2 : pr = ({ db with archive := (db.archive ++ backfillRows db.archive d e) },
          (backfillRows db.archive d e).length) := (Except.ok.inj h4).symm
      subst hpr2
      intro t
      by_cases hdref : d ∈ e.refs
      · have hrows : backfillRows db.archive d e = [] := by
          rw [List.eq_nil_iff_forall_not_mem]
          intro r hr
          rw [backfillRows_mem_iff] at hr
          obtain ⟨t2, ht2, v, hev, hrfl⟩ := hr
          have hsome : (Expr.eval (fun i => lookupValue db.archive i t2) e).isSome = true := by
            rw [hev]; rfl
          rw [Expr.eval_isSome_iff] at hsome
          have hdk := hasKey_of_lookupValue_isSome (hsome d hdref)
          rw [hfresh t2] at hdk
          cases hdk
        rw [hrows]
        simp only [List.append_nil]
        rw [hfresh t]
        constructor
        · intro hcon
          cases hcon
        · intro hall
          have := hall d hdref
          rw [lookupValue_eq_none_of_hasKey_false (hfresh t)] at this
          cases this
      · have hattr : ∀ r ∈ backfillRows db.archive d e, r.attribute_id = d :=
          backfillRows_attr
        have hlook : ∀ i ∈ e.refs,
            lookupValue (db.archive ++ backfillRows db.archive d e) i t =
              lookupValue db.archive i t := by
          intro i hi
          exact lookupValue_append_allne _
            (fun r hr heq => hdref ((hattr r hr ▸ heq) ▸ hi)) _ _
        have hiff1 : (∀ i ∈ e.refs,
            (lookupValue (db.archive ++ backfillRows db.archive d e) i t).isSome = true) ↔
            (Expr.eval (fun i => lookupValue db.archive i t) e).isSome = true := by
          rw [Expr.eval_isSome_iff]
          refine forall_congr' (fun i => ?_)
          refine imp_congr_right (fun hi => ?_)
          rw [hlook i hi]
        have hkey : hasKey (db.archive ++ backfillRows db.archive d e) d t =
            hasKey (backfillRows db.archive d e) d t := by
          rw [hasKey_append, hfresh t, Bool.false_or]
        rw [hkey, hiff1]
        constructor
        · intro hhk
          rw [hasKey_iff_exists] at hhk
          obtain ⟨r, hr, hra, hrt⟩ := hhk
          rw [backfillRows_mem_iff] at hr
          obtain ⟨t2, ht2, v, hev, hrfl⟩ := hr
          subst hrfl
          simp only at hrt
          subst hrt
          rw [hev]
          rfl
        · intro hev
          obtain ⟨v, hv⟩ := Option.isSome_iff_exists.mp hev
          obtain ⟨i0, hi0⟩ := List.exists_mem_of_ne_nil e.refs href
          have hl : (lookupValue db.archive i0 t).isSome = true := by
            rw [Expr.eval_isSome_iff] at hev
            exact hev i0 hi0
          have hkey0 := hasKey_of_lookupValue_isSome hl
          rw [hasKey_iff_exists] at hkey0
          obtain ⟨r0, hr0, hr0a, hr0t⟩ := hkey0
          have hts : t ∈ distinctTimestamps db.archive e.refs := by
            rw [distinctTimestamps_mem]
            exact ⟨r0, hr0, hr0a ▸ hi0, hr0t⟩
          rw [hasKey_iff_exists]
          refine ⟨⟨d, t, some v⟩, ?_, rfl, rfl⟩
          rw [backfillRows_mem_iff]
          exact ⟨t, hts, v, hv, rfl⟩
  · intro db a t v hflat hnod ha hk hinv
    intro tr htr t0
    have harch : (insertArchiveRow db a t v).archive =
        db.triggers.foldl (fun acc tr2 => triggerStep acc tr2 a t)
          (db.archive ++ [⟨a, t, v⟩]) := insertArchiveRow_flat db a t v hflat
    have htrig : (insertArchiveRow db a t v).triggers = db.triggers := rfl
    rw [htrig] at htr
    have hne_ad : a ≠ tr.derived_id := by
      intro hcon
      exact ha (hcon ▸ List.mem_map.mpr ⟨tr, htr, rfl⟩)
    by_cases ht0 : t0 = t
    · subst ht0
      have hrefs_nd : ∀ i ∈ tr.formula.refs, ∀ tr2 ∈ db.triggers,
          tr2.derived_id ≠ i := by
        intro i hi tr2 htr2 heq
        exact (hflat tr2 htr2 tr htr) (heq ▸ hi)
      have hlook_ref : ∀ i ∈ tr.formula.refs,
          lookupValue (insertArchiveRow db a t0 v).archive i t0 =
            lookupValue (db.archive ++ [⟨a, t0, v⟩]) i t0 := by
        intro i hi
        rw [harch]
        exact foldSteps_lookup_ne db.triggers _ a t0 t0 (hrefs_nd i hi)
      by_cases hg : a ∈ tr.formula.refs
      · cases hev : tr.formula.eval
            (fun i => lookupValue (db.archive ++ [⟨a, t0, v⟩]) i t0) with
        | some v0 =>
          have hfire := (flat_event_fires hflat hnod htr hg).1 v0 hev
          constructor
          · intro _
            intro i hi
            rw [hlook_ref i hi]
            have hsome : (tr.formula.eval
                (fun i => lookupValue (db.archive ++ [⟨a, t0, v⟩]) i t0)).isSome = true := by
              rw [hev]; rfl
            rw [Expr.eval_isSome_iff] at hsome
            exact hsome i hi
          · intro _
            rw [harch]
            exact hfire.1
        | none =>
          have hfire := (flat_event_fires hflat hnod htr hg).2 hev
          have hkey2 : hasKey (insertArchiveRow db a t0 v).archive tr.derived_id t0 =
              hasKey db.archive tr.derived_id t0 := by
            rw [harch, hfire.2]
            exact hasKey_append_single_ne (fun hcon => hne_ad hcon.1)
          have hpre_false : hasKey db.archive tr.derived_id t0 = false := by
            rw [← Bool.not_eq_true]
            intro hcon
            have := (hinv tr htr t0).mp hcon
            have h2 := this a hg
            rw [lookupValue_eq_none_of_hasKey_false hk] at h2
            cases h2
          rw [hkey2, hpre_false]
          constructor
          · intro hcon
            cases hcon
          · intro hall
            have hsome : (tr.formula.eval
                (fun i => lookupValue (db.archive ++ [⟨a, t0, v⟩]) i t0)).isSome = true := by
              rw [Expr.eval_isSome_iff]
              intro i hi
              rw [← hlook_ref i hi]
              exact hall i hi
            rw [hev] at hsome
            cases hsome
      · have hskip := @flat_event_skip db.triggers
          (db.archive ++ [⟨a, t0, v⟩]) a t0 hnod tr htr hg
        have hkey2 : hasKey (insertArchiveRow db a t0 v).archive tr.derived_id t0 =
            hasKey db.archive tr.derived_id t0 := by
          rw [harch, hskip.2]
          exact hasKey_append_single_ne (fun hcon => hne_ad hcon.1)
        have hlook2 : ∀ i ∈ tr.formula.refs,
            lookupValue (insertArchiveRow db a t0 v).archive i t0 =
              lookupValue db.archive i t0 := by
          intro i hi
          rw [hlook_ref i hi]
          exact lookupValue_append_single_ne
            (fun hcon => hg ((show i = a from hcon.1.symm) ▸ hi))
        rw [hkey2]
        have hiff : (∀ i ∈ tr.formula.refs,
            (lookupValue (insertArchiveRow db a t0 v).archive i t0).isSome = true) ↔
            (∀ i ∈ tr.formula.refs,
              (lookupValue db.archive i t0).isSome = true) := by
          refine forall_congr' (fun i => ?_)
          refine imp_congr_right (fun hi => ?_)
          rw [hlook2 i hi]
        rw [hiff]
        exact hinv tr htr t0
    · have hkey2 : hasKey (insertArchiveRow db a t v).archive tr.derived_id t0 =
          hasKey db.archive tr.derived_id t0 := by
        rw [harch, foldSteps_hasKey_ne_ts ht0 db.triggers _ a tr.derived_id]
        exact hasKey_append_single_ne (fun hcon => ht0 hcon.2.symm)
      have hlook2 : ∀ i : Nat,
          lookupValue (insertArchiveRow db a t v).archive i t0 =
            lookupValue db.archive i t0 := by
        intro i
        rw [harch, foldSteps_lookup_ne_ts ht0 db.triggers _ a i]
        exact lookupValue_append_single_ne (fun hcon => ht0 hcon.2.symm)
      rw [hkey2]
      have hiff : (∀ i ∈ tr.formula.refs,
          (lookupValue (insertArchiveRow db a t v).archive i t0).isSome = true) ↔
          (∀ i ∈ tr.formula.refs,
            (lookupValue db.archive i t0).isSome = true) := by
        refine forall_congr' (fun i => ?_)
        refine imp_congr_right (fun _ => ?_)
        rw [hlook2 i]
      rw [hiff]
      exact hinv tr htr t0

theorem insertIgnore_keyUnique {rows : List Row} :
    ∀ {arch : List Row}, KeyUnique arch → KeyUnique (insertIgnore arch rows).1 := by
  induction rows with
  | nil => intro arch hu; exact hu
  | cons r rest ih =>
    intro arch hu
    by_cases hk : hasKey arch r.attribute_id r.timestamp = true
    · simp only [insertIgnore, hk, if_true]
      exact ih hu
    · have hk2 : hasKey arch r.attribute_id r.timestamp = false := by
        rw [← Bool.not_eq_true]; exact hk
      simp only [insertIgnore, hk2, Bool.false_eq_true, if_false]
      show KeyUnique (insertIgnore (arch ++ [r]) rest).1
      exact ih (KeyUnique_append_singleton r.value hu hk2)

/-!
Claim C3.
-/

/-- C3 (counterexample): a second insert of an already-present key is
NOT always "an update of the existing row's value".  In dbStale the
key (9, 1) already holds value 5; backfilling 9 with formula `$7`
computes 2 at timestamp 1 and attempts to insert (9, 1, 2), but the
ON CONFLICT DO NOTHING clause skips it — the store is unchanged and
still holds the old value 5, not an updated 2 — and a direct duplicate
INSERT under the unique constraint is rejected, not turned into an
update. -/
theorem C3_counterexample :
    backfill_derived_attribute dbStale 9 (.ref 7) = .ok (dbStale, 0) ∧
    lookupValue dbStale.archive 9 1 = some 5 ∧
    Expr.eval (fun i => lookupValue dbStale.archive i 1) (.ref 7) = some 2 ∧
    (some (5 : ℚ)) ≠ some (2 : ℚ) ∧
    insertArchiveRowChecked dbStale 9 1 (some 2) =
      .error "duplicate key value violates unique constraint" := by
  refine ⟨?_, by norm_num [dbStale, lookupValue],
    by norm_num [dbStale, Expr.eval, lookupValue], by norm_num, rfl⟩
  norm_num [backfill_derived_attribute, dbStale, backfillRows, distinctTimestamps,
    insertIgnore, hasKey, lookupValue, Expr.eval, Expr.refs, List.dedup] <;> decide

/-- C3 (amended): at most one row per (attribute_id, timestamp) holds
throughout — a constraint-checked insert and a successful backfill
both preserve key uniqueness — but the fate of a conflicting second
insert depends on the path: the trigger's upsert updates the existing
row's value in place (same row count, new value), while backfill's
ON CONFLICT DO NOTHING skips every conflicting row and retains the old
value. -/
theorem C3_unique_key_amended :
    (∀ (db : DB) (a t : Nat) (v : Option ℚ) (db2 : DB),
      KeyUnique db.archive → insertArchiveRowChecked db a t v = .ok db2 →
      KeyUnique db2.archive) ∧
    (∀ (db : DB) (d : Nat) (e : Expr) (pr : DB × Nat),
      KeyUnique db.archive → backfill_derived_attribute db d e = .ok pr →
      KeyUnique pr.1.archive) ∧
    (∀ (arch : List Row) (b s : Nat) (v : Option ℚ),
      hasKey arch b s = true →
      (updateValue arch b s v).length = arch.length ∧
      lookupValue (updateValue arch b s v) b s = v) ∧
    (∀ (arch rows : List Row),
      (∀ r ∈ rows, hasKey arch r.attribute_id r.timestamp = true) →
      insertIgnore arch rows = (arch, [])) := by
  refine ⟨?_, ?_, ?_, ?_⟩
  · intro db a t v db2 hu h
    by_cases hk : hasKey db.archive a t = true
    · rw [insertArchiveRowChecked, if_pos hk] at h
      cases h
    · rw [insertArchiveRowChecked, if_neg hk] at h
      have hdb2 := Except.ok.inj h
      subst hdb2
      have hk2 : hasKey db.archive a t = false := by
        rw [← Bool.not_eq_true]; exact hk
      have hu2 : KeyUnique (db.archive ++ [⟨a, t, v⟩]) :=
        KeyUnique_append_singleton v hu hk2
      have hw := fireStack_writes db.triggers (triggerFuel db.triggers)
        [(db.triggers, a)] t (db.archive ++ [⟨a, t, v⟩])
        (by
          intro fr hfr tr htr
          cases hfr with
          | head => exact htr
          | tail _ h2 => cases h2)
      exact hw.keyUnique hu2
  · intro db d e pr hu h
    rcases backfill_ok_cases h with ⟨_, hpr⟩ | ⟨hemp, hchk, hpr⟩
    · subst hpr; exact hu
    · subst hpr
      show KeyUnique ((insertIgnore db.archive (backfillRows db.archive d e)).2.foldl
        (fun acc r => fireStack db.triggers (triggerFuel db.triggers)
          [(db.triggers, r.attribute_id)] r.timestamp acc)
        (insertIgnore db.archive (backfillRows db.archive d e)).1)
      have hu1 : KeyUnique (insertIgnore db.archive (backfillRows db.archive d e)).1 :=
        insertIgnore_keyUnique hu
      have hfold : ∀ (rows2 acc : List Row), KeyUnique acc →
          KeyUnique (rows2.foldl (fun acc r => fireStack db.triggers
            (triggerFuel db.triggers) [(db.triggers, r.attribute_id)]
            r.timestamp acc) acc) := by
        intro rows2
        induction rows2 with
        | nil => intro acc hacc; exact hacc
        | cons r rest ih =>
          intro acc hacc
          rw [List.foldl_cons]
          refine ih _ ?_
          have hw := fireStack_writes db.triggers (triggerFuel db.triggers)
            [(db.triggers, r.attribute_id)] r.timestamp acc
            (by
              intro fr hfr tr htr
              cases hfr with
              | head => exact htr
              | tail _ h2 => cases h2)
          exact hw.keyUnique hacc
      exact hfold _ _ hu1
  · intro arch b s v hk
    exact ⟨length_updateValue arch b s v, lookupValue_updateValue_self v hk⟩
  · intro arch rows hall
    exact insertIgnore_all_conflict hall

/-- C3 (witness): the amended uniqueness law at concrete inputs: the
checked insert of (7, 1, 2) into dbOrderInd keeps keys unique; the
trigger upsert's update branch on dbStale's present key (9, 1) keeps
the row count and stores the new value; backfill's conflicting insert
of (9, 1, 2) into dbStale's archive is skipped outright. -/
theorem C3_unique_key_amended_witness :
    KeyUnique (insertArchiveRow dbOrderInd 7 1 (some 2)).archive ∧
    (updateValue dbStale.archive 9 1 (some 7)).length =
      dbStale.archive.length ∧
    lookupValue (updateValue dbStale.archive 9 1 (some 7)) 9 1 = some 7 ∧
    insertIgnore dbStale.archive [⟨9, 1, some 2⟩] = (dbStale.archive, []) := by
  refine ⟨?_, ?_, ?_, ?_⟩
  · exact C3_unique_key_amended.1 dbOrderInd 7 1 (some 2)
      (insertArchiveRow dbOrderInd 7 1 (some 2))
      (List.Pairwise.nil) rfl
  · exact (C3_unique_key_amended.2.2.1 dbStale.archive 9 1 (some 7)
      (by decide)).1
  · exact (C3_unique_key_amended.2.2.1 dbStale.archive 9 1 (some 7)
      (by decide)).2
  · exact C3_unique_key_amended.2.2.2 dbStale.archive [⟨9, 1, some 2⟩]
      (by
        intro r hr
        cases hr with
        | head => decide
        | tail _ h2 => cases h2)

/-!
Claim C4.
-/

/-- C4 (counterexample): creating a derived attribute whose formula
references the nonexistent attribute id 999 fails with the
unknown-attribute error, yet the freshly inserted Attribute row (id 8)
is already committed and persists — the claim's "no partial state, no
new Attribute row persisted" is false on the code. -/
theorem C4_counterexample :
    (insert_attribute dbOneSource ⟨"D", 1, none, some (.ref 999), true⟩).2 =
      .error "Formula references non-existent attribute IDs" ∧
    (insert_attribute dbOneSource ⟨"D", 1, none, some (.ref 999), true⟩).1.attrs =
      (dbOneSource.attrs ++ [⟨8, 1, "D", none⟩]) ∧
    (insert_attribute dbOneSource ⟨"D", 1, none, some (.ref 999), true⟩).1.attrs ≠
      dbOneSource.attrs := by
  refine ⟨?_, ?_, ?_⟩
  · norm_num [insert_attribute, dbOneSource, backfill_derived_attribute,
      Expr.refs] <;> decide
  · norm_num [insert_attribute, dbOneSource, backfill_derived_attribute,
      Expr.refs] <;> decide
  · norm_num [insert_attribute, dbOneSource, backfill_derived_attribute,
      Expr.refs] <;> decide

/-- C4 (amended): if the formula of createDerivedAttribute references a
missing attribute id, the operation fails with the unknown-attribute
error before any archive or trigger mutation — but only after the new
Attribute row has been inserted and committed, so that row persists
(two committed phases, as the spec's Create contract itself states). -/
theorem C4_amended_unknown_attribute (db : DB) (d : InsertData) (e : Expr)
    (hf : d.formula = some e)
    (hemp : e.refs.isEmpty = false)
    (hmiss : e.refs.all (fun i =>
      (db.attrs ++ [(⟨db.nextAttrId, d.element_id, d.name, d.kks⟩ : AttrRec)]).any
        (fun a => a.attribute_id == i)) = false) :
    insert_attribute db d =
      ({ db with
          attrs := (db.attrs ++ [(⟨db.nextAttrId, d.element_id, d.name, d.kks⟩ : AttrRec)]),
          nextAttrId := db.nextAttrId + 1 },
        .error "Formula references non-existent attribute IDs") := by
  have hbf : ∀ db2 : DB,
      db2.attrs = db.attrs ++ [(⟨db.nextAttrId, d.element_id, d.name, d.kks⟩ : AttrRec)] →
      backfill_derived_attribute db2 db.nextAttrId e =
        .error "Formula references non-existent attribute IDs" := by
    intro db2 hattrs
    rw [backfill_derived_attribute, if_neg (by rw [hemp]; exact Bool.false_ne_true),
      if_neg (by rw [hattrs, hmiss]; exact Bool.false_ne_true)]
  have hbf2 := hbf
    { db with
      attrs := (db.attrs ++ [(⟨db.nextAttrId, d.element_id, d.name, d.kks⟩ : AttrRec)]),
      nextAttrId := db.nextAttrId + 1 } rfl
  simp only [insert_attribute, hf, hbf2]

/-- C4 (witness): creating derived attribute "D" over dbOneSource with
formula `$999` fails with the unknown-attribute error while the new
Attribute row (id 8) persists. -/
theorem C4_amended_unknown_attribute_witness :
    insert_attribute dbOneSource ⟨"D", 1, none, some (.ref 999), true⟩ =
      ({ dbOneSource with
          attrs := (dbOneSource.attrs ++
            [(⟨dbOneSource.nextAttrId, 1, "D", none⟩ : AttrRec)]),
          nextAttrId := dbOneSource.nextAttrId + 1 },
        .error "Formula references non-existent attribute IDs") := by
  exact C4_amended_unknown_attribute dbOneSource
    ⟨"D", 1, none, some (.ref 999), true⟩ (.ref 999) rfl (by decide) (by decide)

/-!
Claim C5.
-/

set_option maxHeartbeats 2000000 in
/-- C5 (counterexample): the claimed recomputation for UPDATED
ArchiveRecords does not happen.  In dbUpdEvent derived 10 has formula
`$9` and derived 9 has formula `$7 + $8`; inserting source 8 = 3 at
timestamp 1 UPDATES the existing row (9, 1) from 2 to 5 through the
upsert, but 10 — whose source set includes 9 — keeps its stale value
2 while its formula now evaluates to 5: only genuine inserts fire the
AFTER INSERT triggers, updates do not. -/
theorem C5_counterexample :
    lookupValue (insertArchiveRow dbUpdEvent 8 1 (some 3)).archive 9 1 =
        some 5 ∧
    lookupValue (insertArchiveRow dbUpdEvent 8 1 (some 3)).archive 10 1 =
        some 2 ∧
    Expr.eval
        (fun i => lookupValue (insertArchiveRow dbUpdEvent 8 1 (some 3)).archive i 1)
        (.ref 9) = some 5 ∧
    (some (2 : ℚ)) ≠ some (5 : ℚ) := by
  have h : (insertArchiveRow dbUpdEvent 8 1 (some 3)).archive =
      [⟨7, 1, some 2⟩, ⟨9, 1, some 5⟩, ⟨10, 1, some 2⟩, ⟨8, 1, some 3⟩] := by
    have e0 : (insertArchiveRow dbUpdEvent 8 1 (some 3)).archive =
        fireStack [⟨9, .add (.ref 7) (.ref 8)⟩, ⟨10, .ref 9⟩] (11 + 1)
          [([⟨9, .add (.ref 7) (.ref 8)⟩, ⟨10, .ref 9⟩], 8)] 1
          [⟨7, 1, some 2⟩, ⟨9, 1, some 2⟩, ⟨10, 1, some 2⟩, ⟨8, 1, some 3⟩] := rfl
    rw [e0, fireStack_step_update _ 11 _ _ _ _ _ _ 5 (by decide)
      (by norm_num [Expr.eval, lookupValue]) (by decide)]
    rfl
  rw [h]
  refine ⟨by norm_num [lookupValue], by norm_num [lookupValue], ?_, by norm_num⟩
  norm_num [Expr.eval, lookupValue]

/-- C5 (amended): the contract holds for NEWLY INSERTED source records
only.  When a new row for source a at timestamp t is committed into a
store with flat, uniquely registered triggers, then for every derived
attribute whose source set includes a: if all of its sources have a
present value at t the derived value is computed and stored at t, and
otherwise its row set is left untouched (no derived row is written, no
error is raised). -/
theorem C5_insert_event_amended (db : DB) (a t : Nat) (v : Option ℚ)
    (tr : Trigger) (hflat : FlatTriggers db.triggers)
    (hnod : NodupDerived db.triggers) (htr : tr ∈ db.triggers)
    (hg : a ∈ tr.formula.refs) :
    ((∀ i ∈ tr.formula.refs,
        (lookupValue (db.archive ++ [⟨a, t, v⟩]) i t).isSome = true) →
      lookupValue (insertArchiveRow db a t v).archive tr.derived_id t =
        tr.formula.eval
          (fun i => lookupValue (db.archive ++ [⟨a, t, v⟩]) i t)) ∧
    (tr.formula.eval (fun i => lookupValue (db.archive ++ [⟨a, t, v⟩]) i t) =
        none →
      rowsOf (insertArchiveRow db a t v).archive tr.derived_id =
        rowsOf (db.archive ++ [⟨a, t, v⟩]) tr.derived_id) := by
  have harch : (insertArchiveRow db a t v).archive =
      db.triggers.foldl (fun acc tr2 => triggerStep acc tr2 a t)
        (db.archive ++ [⟨a, t, v⟩]) := insertArchiveRow_flat db a t v hflat
  constructor
  · intro hall
    have hsome : (tr.formula.eval
        (fun i => lookupValue (db.archive ++ [⟨a, t, v⟩]) i t)).isSome = true := by
      rw [Expr.eval_isSome_iff]
      exact hall
    obtain ⟨v0, hv0⟩ := Option.isSome_iff_exists.mp hsome
    have hfire := (flat_event_fires hflat hnod htr hg).1 v0 hv0
    rw [harch, hfire.2, hv0]
  · intro hnone
    have hfire := (flat_event_fires hflat hnod htr hg).2 hnone
    rw [harch, hfire.1]

/-- C5 (witness): the amended insert-event contract applied to
dbOrderInd: inserting source 7 = 2 at timestamp 1 with source 8 still
absent touches no row of derived 9 (its formula `$7 + $8` evaluates to
NULL). -/
theorem C5_insert_event_amended_witness :
    rowsOf (insertArchiveRow dbOrderInd 7 1 (some 2)).archive 9 =
      rowsOf (dbOrderInd.archive ++ [⟨7, 1, some 2⟩]) 9 := by
  have h := C5_insert_event_amended dbOrderInd 7 1 (some 2)
    ⟨9, .add (.ref 7) (.ref 8)⟩
    (by unfold FlatTriggers; decide)
    (by unfold NodupDerived derivedIds; decide)
    (by decide) (by decide)
  exact h.2 (by norm_num [dbOrderInd, Expr.eval, lookupValue])

/-!
Claim C6.
-/

/-- C6: order-independent convergence of the live trigger.  With
derived attribute 9 registered on formula `$7 + $8`, ingesting 7 = 2
then 8 = 3 at timestamp 1 and ingesting them in the opposite order both
leave exactly one derived row for attribute 9 at timestamp 1 with value
5, and the two final archives hold the same rows (as a multiset; only
physical insertion order differs). -/
theorem C6_order_independent_convergence :
    rowsOf (insertArchiveRow (insertArchiveRow dbOrderInd 7 1 (some 2)) 8 1
        (some 3)).archive 9 = [⟨9, 1, some 5⟩] ∧
    rowsOf (insertArchiveRow (insertArchiveRow dbOrderInd 8 1 (some 3)) 7 1
        (some 2)).archive 9 = [⟨9, 1, some 5⟩] ∧
    (insertArchiveRow (insertArchiveRow dbOrderInd 7 1 (some 2)) 8 1
        (some 3)).archive.Perm
      (insertArchiveRow (insertArchiveRow dbOrderInd 8 1 (some 3)) 7 1
        (some 2)).archive := by
  have h1 : (insertArchiveRow (insertArchiveRow dbOrderInd 7 1 (some 2)) 8 1
      (some 3)).archive = [⟨7, 1, some 2⟩, ⟨8, 1, some 3⟩, ⟨9, 1, some 5⟩] := by
    norm_num [insertArchiveRow, dbOrderInd, fireStack, triggerFuel, hasKey,
      lookupValue, updateValue, Expr.eval, Expr.refs]
  have h2 : (insertArchiveRow (insertArchiveRow dbOrderInd 8 1 (some 3)) 7 1
      (some 2)).archive = [⟨8, 1, some 3⟩, ⟨7, 1, some 2⟩, ⟨9, 1, some 5⟩] := by
    norm_num [insertArchiveRow, dbOrderInd, fireStack, triggerFuel, hasKey,
      lookupValue, updateValue, Expr.eval, Expr.refs]
  rw [h1, h2]
  refine ⟨by decide, by decide, by decide⟩

/-!
Claim C7.
-/

/-- C7 (counterexample): the explanatory clause "the upsert is a no-op
when the computed value is unchanged, an update otherwise" is false.
In dbDrift derived 6 already holds value 3 at timestamp 2 while its
formula `$4 * 2` computes 20 there; backfill succeeds but inserts
nothing — ON CONFLICT DO NOTHING skips the conflicting key — and the
stale value 3 is retained instead of being updated to 20. -/
theorem C7_counterexample :
    backfill_derived_attribute dbDrift 6 (.mul (.ref 4) (.const 2)) =
        .ok (dbDrift, 0) ∧
    Expr.eval (fun i => lookupValue dbDrift.archive i 2)
        (.mul (.ref 4) (.const 2)) = some 20 ∧
    lookupValue dbDrift.archive 6 2 = some 3 ∧
    (some (3 : ℚ)) ≠ some (20 : ℚ) := by
  refine ⟨?_, by norm_num [dbDrift, Expr.eval, lookupValue],
    by norm_num [dbDrift, lookupValue], by norm_num⟩
  norm_num [backfill_derived_attribute, dbDrift, backfillRows, distinctTimestamps,
    insertIgnore, hasKey, lookupValue, Expr.eval, Expr.refs, List.dedup] <;> decide

/-- C7 (amended): backfill IS idempotent, by skip rather than by
update: provided the backfilled attribute is not a source of any
installed trigger, a second run of a succeeding backfill over the
resulting store succeeds, inserts 0 rows and leaves the store
unchanged. -/
theorem C7_backfill_idempotent (db : DB) (d : Nat) (e : Expr) (pr : DB × Nat)
    (hd : ∀ tr ∈ db.triggers, d ∉ tr.formula.refs)
    (h : backfill_derived_attribute db d e = .ok pr) :
    backfill_derived_attribute pr.1 d e = .ok (pr.1, 0) := by
  rcases backfill_ok_cases h with ⟨hemp, hpr⟩ | ⟨hemp, hchk, hpr⟩
  · subst hpr
    show backfill_derived_attribute db d e = .ok (db, 0)
    rw [backfill_derived_attribute, if_pos hemp]
  · have hins : ∀ r ∈ (insertIgnore db.archive (backfillRows db.archive d e)).2,
        r.attribute_id = d :=
      fun r hr => backfillRows_attr r (insertIgnore_mem_rows hr)
    have harch2 : (insertIgnore db.archive (backfillRows db.archive d e)).2.foldl
        (fun acc r => fireStack db.triggers (triggerFuel db.triggers)
          [(db.triggers, r.attribute_id)] r.timestamp acc)
        (insertIgnore db.archive (backfillRows db.archive d e)).1 =
        (insertIgnore db.archive (backfillRows db.archive d e)).1 :=
      backfill_fire_id hd _ hins _
    rw [harch2] at hpr
    have main : ∀ dbB : DB, dbB.attrs = db.attrs →
        dbB.archive = (insertIgnore db.archive (backfillRows db.archive d e)).1 →
        backfill_derived_attribute dbB d e = .ok (dbB, 0) := by
      intro dbB hattrs harch
      rw [backfill_derived_attribute,
        if_neg (by rw [hemp]; exact Bool.false_ne_true),
        if_pos (by rw [hattrs]; exact hchk)]
      have hconf : ∀ r ∈ backfillRows dbB.archive d e,
          hasKey dbB.archive r.attribute_id r.timestamp = true := by
        intro r hr
        by_cases hdref : d ∈ e.refs
        · rw [backfillRows_mem_iff] at hr
          obtain ⟨t2, ht2, v, hev, hrfl⟩ := hr
          subst hrfl
          have hsome : (Expr.eval (fun i => lookupValue dbB.archive i t2) e).isSome
              = true := by
            rw [hev]; rfl
          rw [Expr.eval_isSome_iff] at hsome
          exact hasKey_of_lookupValue_isSome (hsome d hdref)
        · have henv : ∀ t2 : Nat, ∀ i ∈ e.refs,
              lookupValue dbB.archive i t2 = lookupValue db.archive i t2 := by
            intro t2 i hi
            rw [harch, insertIgnore_fst]
            exact lookupValue_append_allne _
              (fun r2 hr2 heq => hdref ((hins r2 hr2 ▸ heq) ▸ hi)) _ _
          have hdt : distinctTimestamps dbB.archive e.refs =
              distinctTimestamps db.archive e.refs := by
            rw [harch, insertIgnore_fst]
            exact distinctTimestamps_append_allne _
              (fun r2 hr2 hc => hdref (hins r2 hr2 ▸ hc))
          have hrows_eq : backfillRows dbB.archive d e =
              backfillRows db.archive d e := by
            rw [backfillRows, backfillRows, hdt]
            apply List.filterMap_congr
            intro t2 _
            rw [Expr.eval_congr e (henv t2)]
          rw [hrows_eq] at hr
          rw [harch, backfillRows_attr r hr]
          have hkk := @insertIgnore_mem_key (backfillRows db.archive d e)
            db.archive r hr
          rw [backfillRows_attr r hr] at hkk
          exact hkk
      rw [insertIgnore_all_conflict hconf]
      simp
    have hfin := main ({ db with archive :=
        (insertIgnore db.archive (backfillRows db.archive d e)).1 }) rfl rfl
    rw [hpr]
    exact hfin

/-- C7 (witness): the amended idempotence law applied to dbDrift:
backfilling derived 6 with formula `$4 * 2` succeeds with 0 inserted
rows, and running it again over the result again succeeds with 0
inserted rows and an unchanged store. -/
theorem C7_backfill_idempotent_witness :
    backfill_derived_attribute dbDrift 6 (.mul (.ref 4) (.const 2)) =
      .ok (dbDrift, 0) := by
  have h0 : backfill_derived_attribute dbDrift 6 (.mul (.ref 4) (.const 2)) =
      .ok (dbDrift, 0) := by
    norm_num [backfill_derived_attribute, dbDrift, backfillRows, distinctTimestamps,
      insertIgnore, hasKey, lookupValue, Expr.eval, Expr.refs, List.dedup] <;> decide
  exact C7_backfill_idempotent dbDrift 6 (.mul (.ref 4) (.const 2))
    (dbDrift, 0) (by decide) h0

/-!
Claim C8.
-/

/-- C8 (counterexample): attribute 5 exists but is not derived (no
trigger function); updateAttribute with only a metadata field (a new
name) is rejected with the not-a-derived-attribute error instead of
succeeding — metadata-only changes ARE rejected on the grounds that the
attribute is not derived, refuting the claim. -/
theorem C8_counterexample :
    update_attribute dbPlainAttr 5 ⟨some "N", none, none, true, true⟩ =
      (dbPlainAttr, .error "not a derived attribute") := by
  norm_num [update_attribute, dbPlainAttr]

/-- C8 (amended): metadata-only updates (name and/or kks) succeed, and
update exactly those fields, only when the attribute has an active
derived registration; the code rejects every update of a non-derived
attribute. -/
theorem C8_amended_metadata_only (db : DB) (attribute_id : Nat) (nm kk : String)
    (hex : db.attrs.any (fun a => a.attribute_id == attribute_id) = true)
    (hdr : db.triggers.any (fun tr => tr.derived_id == attribute_id) = true)
    (hnm : nm ≠ "") (hkk : kk ≠ "") :
    update_attribute db attribute_id ⟨some nm, some kk, none, true, true⟩ =
      ({ db with attrs := (db.attrs.map (fun a =>
          if a.attribute_id == attribute_id then
            { a with name := nm, kks := some kk } else a)) },
        .ok ⟨["name", "kks"], none, none⟩) := by
  have hgn : givenStr (some nm) = true := by
    simp only [givenStr, bne_iff_ne, ne_eq]
    intro hcon
    exact hnm (string_length_zero hcon)
  have hgk : givenStr (some kk) = true := by
    simp only [givenStr, bne_iff_ne, ne_eq]
    intro hcon
    exact hkk (string_length_zero hcon)
  have happ : ∀ a : AttrRec,
      applyMeta a ⟨some nm, some kk, none, true, true⟩ =
        { a with name := nm, kks := some kk } := by
    intro a
    simp [applyMeta, hgn, hgk]
  simp only [update_attribute, hex, hdr, not_true_eq_false, if_false, hgn, hgk,
    if_true, List.singleton_append, List.isEmpty_cons, happ]
  simp

/-- C8 (witness): renaming the derived attribute 9 of dbUpdEvent with a
metadata-only update succeeds and rewrites exactly its name and kks. -/
theorem C8_amended_metadata_only_witness :
    update_attribute dbUpdEvent 9 ⟨some "NN", some "KK", none, true, true⟩ =
      ({ dbUpdEvent with attrs := (dbUpdEvent.attrs.map (fun a =>
          if a.attribute_id == 9 then { a with name := "NN", kks := some "KK" }
          else a)) },
        .ok ⟨["name", "kks"], none, none⟩) := by
  exact C8_amended_metadata_only dbUpdEvent 9 "NN" "KK" (by decide) (by decide)
    (by decide) (by decide)

/-!
Claim C9.
-/

/-- C9: a formula-bearing update of an attribute that exists but has no
active derived registration fails with the not-derived error and
performs no mutation at all: the returned store is the input store, so
the attribute row and every archive row are unchanged. -/
theorem C9_not_derived_rejection (db : DB) (attribute_id : Nat) (d : UpdateData)
    (hex : db.attrs.any (fun a => a.attribute_id == attribute_id) = true)
    (hnd : db.triggers.any (fun tr => tr.derived_id == attribute_id) = false)
    (hf : d.formula.isSome = true) :
    update_attribute db attribute_id d = (db, .error "not a derived attribute") := by
  simp only [update_attribute, hex, hnd, not_true_eq_false, if_false,
    Bool.false_eq_true, not_false_eq_true, if_true]

/-- C9 (witness): a formula update of the existing non-derived
attribute 5 of dbPlainAttr is rejected with the not-derived error and
the returned store is the input store. -/
theorem C9_not_derived_rejection_witness :
    update_attribute dbPlainAttr 5 ⟨none, none, some (.ref 7), true, true⟩ =
      (dbPlainAttr, .error "not a derived attribute") := by
  exact C9_not_derived_rejection dbPlainAttr 5
    ⟨none, none, some (.ref 7), true, true⟩ (by decide) (by decide) rfl

/-!
Claim C10.
-/

/-- C10: delete_attribute never reports a missing id.  For every store
and attribute id the call succeeds, reports attributes_deleted = 1 and
archive_records_deleted equal to the number of archive rows carrying
that id — which matches the number of rows actually removed — and under
referential integrity a nonexistent attribute yields a count of 0. -/
theorem C10_delete_attribute_total (db : DB) (attribute_id : Nat) :
    (delete_attribute db attribute_id).2.1 = 1 ∧
    (delete_attribute db attribute_id).2.2 = (rowsOf db.archive attribute_id).length ∧
    (delete_attribute db attribute_id).1.archive.length +
      (delete_attribute db attribute_id).2.2 = db.archive.length ∧
    ((∀ r ∈ db.archive,
        db.attrs.any (fun a => a.attribute_id == r.attribute_id) = true) →
      db.attrs.any (fun a => a.attribute_id == attribute_id) = false →
      (delete_attribute db attribute_id).2.2 = 0) := by
  refine ⟨rfl, rfl, ?_, ?_⟩
  · simp only [delete_attribute, drop_derived_attribute_trigger]
    exact length_filter_split db.archive attribute_id
  · intro hint hmiss
    simp only [delete_attribute, drop_derived_attribute_trigger]
    have : db.archive.filter (fun r => r.attribute_id == attribute_id) = [] := by
      rw [List.filter_eq_nil_iff]
      intro r hr hc
      have hra : r.attribute_id = attribute_id := by
        exact beq_iff_eq.mp hc
      have := hint r hr
      rw [hra, hmiss] at this
      cases this
    rw [this]
    rfl

/-- C10 (witness): deleting the nonexistent attribute id 99 from a
store whose single archive row belongs to the existing attribute 5
still reports attributes_deleted = 1 and archive_records_deleted = 0. -/
theorem C10_witness :
    (delete_attribute dbPlainAttr 99).2.1 = 1 ∧
      (delete_attribute dbPlainAttr 99).2.2 = 0 := by
  have h := C10_delete_attribute_total dbPlainAttr 99
  exact ⟨h.1, h.2.2.2 (by decide) (by decide)⟩

/-- C1 (witness): the amended strict-AND law applied to concrete
stores: after backfilling derived 9 over dbNullRow, a derived row
exists at t iff both sources 7 and 8 have non-NULL values at t; and
the live trigger path preserves the derived invariant across the
insert of source row (7, 1, 2) into dbOrderInd. -/
theorem C1_strict_and_amended_witness :
    (∀ t, hasKey dbNullRow.archive 9 t = true ↔
      ∀ i ∈ (Expr.add (.ref 7) (.ref 8)).refs,
        (lookupValue dbNullRow.archive i t).isSome = true) ∧
    DerivedInv (insertArchiveRow dbOrderInd 7 1 (some 2)) := by
  constructor
  · intro t
    have h := C1_strict_and_amended.1 dbNullRow 9 (.add (.ref 7) (.ref 8))
      (dbNullRow, 0)
      (by intro tr htr; simp [dbNullRow] at htr)
      (by intro s; norm_num [hasKey, dbNullRow])
      (by decide)
      (by norm_num [backfill_derived_attribute, dbNullRow, backfillRows,
            distinctTimestamps, insertIgnore, fireStack, triggerFuel, hasKey,
            lookupValue, Expr.eval, Expr.refs, List.dedup] <;> decide)
    exact h t
  · exact C1_strict_and_amended.2 dbOrderInd 7 1 (some 2)
      (by unfold FlatTriggers; decide)
      (by unfold NodupDerived derivedIds; decide)
      (by decide) (by decide)
      (by
        intro tr htr t0
        cases htr with
        | head =>
          constructor
          · intro hcon
            simp [dbOrderInd, hasKey] at hcon
          · intro hall
            have h7 := hall 7 (by decide)
            simp [dbOrderInd, lookupValue] at h7
        | tail _ h2 => cases h2)

end Pipeline
